import Mathlib

/-!
Verification development for the indent-write crate: a streaming indentation
adapter over byte sinks (src/io.rs) and string sinks (src/fmt.rs).

Bytes are modelled as natural numbers (values < 256 in all real executions),
strings as lists of Unicode scalar values, and sinks as deterministic state
machines. Rust's std::str::from_utf8 validation (the external primitive used
by partial_from_utf8) is modelled by utf8Validate below, following the
standard UTF-8 validation table; a panic (unreachable!) is modelled as the
Option value none.
-/

set_option maxRecDepth 8000

/-- A continuation byte: 0x80..=0xBF, as in the take_while in io.rs. -/
def utf8Cont (b : Nat) : Bool := decide (0x80 ≤ b ∧ b ≤ 0xBF)

/-- Admissible second byte of a three-byte sequence, per the UTF-8 table
used by Rust's run_utf8_validation: (E0, A0..=BF), (E1..=EC, 80..=BF),
(ED, 80..=9F), (EE..=EF, 80..=BF). -/
def utf8Second3 (b b2 : Nat) : Bool :=
  decide ((b = 0xE0 ∧ 0xA0 ≤ b2 ∧ b2 ≤ 0xBF) ∨
    (0xE1 ≤ b ∧ b ≤ 0xEC ∧ 0x80 ≤ b2 ∧ b2 ≤ 0xBF) ∨
    (b = 0xED ∧ 0x80 ≤ b2 ∧ b2 ≤ 0x9F) ∨
    (0xEE ≤ b ∧ b ≤ 0xEF ∧ 0x80 ≤ b2 ∧ b2 ≤ 0xBF))

/-- Admissible second byte of a four-byte sequence:
(F0, 90..=BF), (F1..=F3, 80..=BF), (F4, 80..=8F). -/
def utf8Second4 (b b2 : Nat) : Bool :=
  decide ((b = 0xF0 ∧ 0x90 ≤ b2 ∧ b2 ≤ 0xBF) ∨
    (0xF1 ≤ b ∧ b ≤ 0xF3 ∧ 0x80 ≤ b2 ∧ b2 ≤ 0xBF) ∨
    (b = 0xF4 ∧ 0x80 ≤ b2 ∧ b2 ≤ 0x8F))

/-- Result of UTF-8 validation, mirroring Rust's Result<(), Utf8Error>:
err carries valid_up_to and error_len. -/
inductive Utf8Res where
  | ok : Utf8Res
  | err (validUpTo : Nat) (errorLen : Option Nat) : Utf8Res
deriving DecidableEq, Repr

/-- Add k to the error offset (used when a leading character has been
consumed; Rust keeps a running index instead, which is equivalent). -/
def shiftRes (k : Nat) : Utf8Res → Utf8Res
  | .ok => .ok
  | .err v e => .err (v + k) e

/-- Rust's run_utf8_validation: byte-level UTF-8 validation returning
valid_up_to (start of the first bad sequence) and error_len (none when the
input merely ended mid-character, some n for a confirmed-invalid sequence). -/
def utf8Validate : List Nat → Utf8Res
  | [] => .ok
  | b :: rest =>
    if b < 0x80 then shiftRes 1 (utf8Validate rest)
    else if b < 0xC2 then .err 0 (some 1)
    else if b < 0xE0 then
      match rest with
      | [] => .err 0 none
      | b2 :: r =>
        if utf8Cont b2 then shiftRes 2 (utf8Validate r) else .err 0 (some 1)
    else if b < 0xF0 then
      match rest with
      | [] => .err 0 none
      | b2 :: r =>
        if utf8Second3 b b2 then
          match r with
          | [] => .err 0 none
          | b3 :: r2 =>
            if utf8Cont b3 then shiftRes 3 (utf8Validate r2) else .err 0 (some 2)
        else .err 0 (some 1)
    else if b < 0xF5 then
      match rest with
      | [] => .err 0 none
      | b2 :: r =>
        if utf8Second4 b b2 then
          match r with
          | [] => .err 0 none
          | b3 :: r2 =>
            if utf8Cont b3 then
              match r2 with
              | [] => .err 0 none
              | b4 :: r3 =>
                if utf8Cont b4 then shiftRes 4 (utf8Validate r3) else .err 0 (some 3)
            else .err 0 (some 2)
        else .err 0 (some 1)
    else .err 0 (some 1)

/-- Rust's Utf8Error. -/
structure Utf8Err where
  validUpTo : Nat
  errorLen : Option Nat
deriving DecidableEq, Repr

/-- partial_from_utf8 (io.rs lines 14..26): split a byte buffer into its
longest valid UTF-8 head and a possibly-incomplete trailing code point;
a confirmed-invalid sequence (error_len is some) is an error. -/
def partialFromUtf8 (buf : List Nat) : Except Utf8Err (List Nat × List Nat) :=
  match utf8Validate buf with
  | .ok => .ok (buf, [])
  | .err v (some l) => .error ⟨v, some l⟩
  | .err v none => .ok (buf.take v, buf.drop v)

/-- A Unicode scalar value (Rust char): below the surrogate range or
between it and 0x110000. -/
def isScalar (v : Nat) : Prop := v < 0xD800 ∨ (0xE000 ≤ v ∧ v < 0x110000)

instance (v : Nat) : Decidable (isScalar v) := by
  unfold isScalar; infer_instance

/-- Standard UTF-8 encoding of one Unicode scalar value. -/
def utf8EncodeScalar (v : Nat) : List Nat :=
  if v < 0x80 then [v]
  else if v < 0x800 then [0xC0 + v / 64, 0x80 + v % 64]
  else if v < 0x10000 then [0xE0 + v / 4096, 0x80 + v / 64 % 64, 0x80 + v % 64]
  else [0xF0 + v / 262144, 0x80 + v / 4096 % 64, 0x80 + v / 64 % 64, 0x80 + v % 64]

/-- Encoding of a string, given as its list of Unicode scalar values. -/
def utf8EncodeScalars (s : List Nat) : List Nat := (s.map utf8EncodeScalar).flatten

/-- Ground truth: a byte list is valid UTF-8 text iff it is a concatenation
of encodings of Unicode scalar values. -/
inductive Utf8Valid : List Nat → Prop where
  | nil : Utf8Valid []
  | cons (v : Nat) (rest : List Nat) (hv : isScalar v) (hr : Utf8Valid rest) :
      Utf8Valid (utf8EncodeScalar v ++ rest)

example : partialFromUtf8 [] = .ok ([], []) := rfl
example : partialFromUtf8 [0x61, 0xC3, 0xA9] = .ok ([0x61, 0xC3, 0xA9], []) := rfl
example : partialFromUtf8 [0xF0, 0x9F, 0x98, 0x80, 0xF0, 0x9F, 0x98] =
    .ok ([0xF0, 0x9F, 0x98, 0x80], [0xF0, 0x9F, 0x98]) := rfl
example : partialFromUtf8 [0x61, 0xFF] = .error ⟨1, some 1⟩ := rfl
example : partialFromUtf8 [0x61, 0xF0, 0x9F, 0xF0] = .error ⟨1, some 2⟩ := rfl
example : utf8EncodeScalar 0x10000 = [0xF0, 0x90, 0x80, 0x80] := by decide
example : utf8EncodeScalar 0xE9 = [0xC3, 0xA9] := by decide

/-! Basic facts about the encoder and validator. -/

theorem utf8Cont_true {b : Nat} (h1 : 0x80 ≤ b) (h2 : b ≤ 0xBF) : utf8Cont b = true := by
  simp only [utf8Cont, decide_eq_true_eq]; omega

theorem utf8Cont_iff {b : Nat} : utf8Cont b = true ↔ 0x80 ≤ b ∧ b ≤ 0xBF := by
  simp only [utf8Cont, decide_eq_true_eq]

theorem utf8Second3_iff {b b2 : Nat} : utf8Second3 b b2 = true ↔
    ((b = 0xE0 ∧ 0xA0 ≤ b2 ∧ b2 ≤ 0xBF) ∨
      (0xE1 ≤ b ∧ b ≤ 0xEC ∧ 0x80 ≤ b2 ∧ b2 ≤ 0xBF) ∨
      (b = 0xED ∧ 0x80 ≤ b2 ∧ b2 ≤ 0x9F) ∨
      (0xEE ≤ b ∧ b ≤ 0xEF ∧ 0x80 ≤ b2 ∧ b2 ≤ 0xBF)) := by
  simp only [utf8Second3, decide_eq_true_eq]

theorem utf8Second4_iff {b b2 : Nat} : utf8Second4 b b2 = true ↔
    ((b = 0xF0 ∧ 0x90 ≤ b2 ∧ b2 ≤ 0xBF) ∨
      (0xF1 ≤ b ∧ b ≤ 0xF3 ∧ 0x80 ≤ b2 ∧ b2 ≤ 0xBF) ∨
      (b = 0xF4 ∧ 0x80 ≤ b2 ∧ b2 ≤ 0x8F)) := by
  simp only [utf8Second4, decide_eq_true_eq]

theorem shiftRes_eq_ok {k : Nat} {x : Utf8Res} : shiftRes k x = .ok ↔ x = .ok := by
  cases x <;> simp [shiftRes]

theorem shiftRes_eq_err {k v : Nat} {e : Option Nat} {x : Utf8Res} :
    shiftRes k x = .err v e ↔ ∃ v0, x = .err v0 e ∧ v = v0 + k := by
  cases x <;> simp [shiftRes] <;> aesop

theorem utf8EncodeScalar_one {v : Nat} (h : v < 0x80) : utf8EncodeScalar v = [v] := by
  simp [utf8EncodeScalar, h]

theorem utf8EncodeScalar_two {v : Nat} (h1 : 0x80 ≤ v) (h2 : v < 0x800) :
    utf8EncodeScalar v = [0xC0 + v / 64, 0x80 + v % 64] := by
  rw [utf8EncodeScalar, if_neg (by omega), if_pos h2]

theorem utf8EncodeScalar_three {v : Nat} (h1 : 0x800 ≤ v) (h2 : v < 0x10000) :
    utf8EncodeScalar v = [0xE0 + v / 4096, 0x80 + v / 64 % 64, 0x80 + v % 64] := by
  rw [utf8EncodeScalar, if_neg (by omega), if_neg (by omega), if_pos h2]

theorem utf8EncodeScalar_four {v : Nat} (h1 : 0x10000 ≤ v) :
    utf8EncodeScalar v =
      [0xF0 + v / 262144, 0x80 + v / 4096 % 64, 0x80 + v / 64 % 64, 0x80 + v % 64] := by
  rw [utf8EncodeScalar, if_neg (by omega), if_neg (by omega), if_neg (by omega)]

theorem utf8EncodeScalar_ne_nil (v : Nat) : utf8EncodeScalar v ≠ [] := by
  unfold utf8EncodeScalar
  split <;> [skip; split] <;> simp_all <;> split <;> simp

theorem utf8EncodeScalar_length_le (v : Nat) : (utf8EncodeScalar v).length ≤ 4 := by
  unfold utf8EncodeScalar
  split <;> [simp; split] <;> [simp; split] <;> simp

/-- The validator consumes exactly one well-formed character and recurses:
prepending the encoding of a scalar value shifts the result of validating
the rest by the encoding's length. -/
theorem utf8Validate_encode (v : Nat) (hv : isScalar v) (rest : List Nat) :
    utf8Validate (utf8EncodeScalar v ++ rest) =
      shiftRes (utf8EncodeScalar v).length (utf8Validate rest) := by
  by_cases h1 : v < 0x80
  · rw [utf8EncodeScalar_one h1]
    simp only [List.cons_append, List.nil_append, List.length_cons, List.length_nil]
    rw [utf8Validate.eq_def]; dsimp only
    rw [if_pos h1]
  · by_cases h2 : v < 0x800
    · rw [utf8EncodeScalar_two (by omega) h2]
      simp only [List.cons_append, List.nil_append, List.length_cons, List.length_nil]
      rw [utf8Validate.eq_def]; dsimp only
      rw [if_neg (by omega), if_neg (by omega), if_pos (by omega),
        if_pos (utf8Cont_true (by omega) (by omega))]
    · by_cases h3 : v < 0x10000
      · rw [utf8EncodeScalar_three (by omega) h3]
        simp only [List.cons_append, List.nil_append, List.length_cons, List.length_nil]
        rw [utf8Validate.eq_def]; dsimp only
        have hs3 : utf8Second3 (0xE0 + v / 4096) (0x80 + v / 64 % 64) = true := by
          rw [utf8Second3_iff]
          rcases hv with hlt | ⟨hge, _⟩
          · -- v < 0xD800: the leading byte is E0..ED; for ED the second byte ≤ 9F
            by_cases hE0 : v / 4096 = 0
            · exact Or.inl ⟨by omega, by omega, by omega⟩
            · by_cases hED : v / 4096 = 0xD
              · refine Or.inr (Or.inr (Or.inl ⟨by omega, by omega, ?_⟩))
                omega
              · exact Or.inr (Or.inl ⟨by omega, by omega, by omega, by omega⟩)
          · -- 0xE000 ≤ v < 0x10000: leading byte EE or EF
            exact Or.inr (Or.inr (Or.inr ⟨by omega, by omega, by omega, by omega⟩))
        rw [if_neg (by omega), if_neg (by omega), if_neg (by omega), if_pos (by omega),
          if_pos hs3, if_pos (utf8Cont_true (by omega) (by omega))]
      · have h4 : v < 0x110000 := by
          rcases hv with hlt | ⟨_, hub⟩ <;> omega
        rw [utf8EncodeScalar_four (by omega)]
        simp only [List.cons_append, List.nil_append, List.length_cons, List.length_nil]
        rw [utf8Validate.eq_def]; dsimp only
        have hs4 : utf8Second4 (0xF0 + v / 262144) (0x80 + v / 4096 % 64) = true := by
          rw [utf8Second4_iff]
          by_cases hF0 : v / 262144 = 0
          · exact Or.inl ⟨by omega, by omega, by omega⟩
          · by_cases hF4 : v / 262144 = 4
            · exact Or.inr (Or.inr ⟨by omega, by omega, by omega⟩)
            · exact Or.inr (Or.inl ⟨by omega, by omega, by omega, by omega⟩)
        rw [if_neg (by omega), if_neg (by omega), if_neg (by omega), if_neg (by omega),
          if_pos (by omega), if_pos hs4, if_pos (utf8Cont_true (by omega) (by omega)),
          if_pos (utf8Cont_true (by omega) (by omega))]

theorem shiftRes_zero (x : Utf8Res) : shiftRes 0 x = x := by
  cases x <;> simp [shiftRes]

theorem shiftRes_comp (a b : Nat) (x : Utf8Res) :
    shiftRes a (shiftRes b x) = shiftRes (b + a) x := by
  cases x <;> simp [shiftRes] <;> omega

/-- Reconstruct the scalar value of an accepted two-byte sequence. -/
theorem utf8Decode2 {b b2 : Nat} (h1 : 0xC2 ≤ b) (h2 : b < 0xE0)
    (hc : utf8Cont b2 = true) :
    isScalar ((b - 0xC0) * 64 + (b2 - 0x80)) ∧
      utf8EncodeScalar ((b - 0xC0) * 64 + (b2 - 0x80)) = [b, b2] := by
  rw [utf8Cont_iff] at hc
  constructor
  · exact Or.inl (by omega)
  · rw [utf8EncodeScalar_two (by omega) (by omega)]
    simp only [List.cons.injEq, and_true]
    constructor <;> omega

/-- Reconstruct the scalar value of an accepted three-byte sequence. -/
theorem utf8Decode3 {b b2 b3 : Nat} (hs : utf8Second3 b b2 = true)
    (hc : utf8Cont b3 = true) :
    isScalar ((b - 0xE0) * 4096 + (b2 - 0x80) * 64 + (b3 - 0x80)) ∧
      utf8EncodeScalar ((b - 0xE0) * 4096 + (b2 - 0x80) * 64 + (b3 - 0x80)) =
        [b, b2, b3] := by
  rw [utf8Second3_iff] at hs
  rw [utf8Cont_iff] at hc
  have hrange : 0x800 ≤ (b - 0xE0) * 4096 + (b2 - 0x80) * 64 + (b3 - 0x80) ∧
      (b - 0xE0) * 4096 + (b2 - 0x80) * 64 + (b3 - 0x80) < 0x10000 ∧
      0xE0 ≤ b ∧ b ≤ 0xEF := by
    rcases hs with ⟨hb, hb2⟩ | ⟨hb, hb', hb2⟩ | ⟨hb, hb2⟩ | ⟨hb, hb', hb2⟩ <;>
      constructor <;> [omega; skip; omega; skip; omega; skip; omega; skip] <;>
      constructor <;> omega
  constructor
  · rcases hs with ⟨hb, hb2⟩ | ⟨hb, hb', hb2⟩ | ⟨hb, hb2⟩ | ⟨hb, hb', hb2⟩
    · exact Or.inl (by omega)
    · exact Or.inl (by omega)
    · exact Or.inl (by omega)
    · exact Or.inr ⟨by omega, by omega⟩
  · rw [utf8EncodeScalar_three (by omega) (by omega)]
    simp only [List.cons.injEq, and_true]
    refine ⟨by omega, by omega, by omega⟩

/-- Reconstruct the scalar value of an accepted four-byte sequence. -/
theorem utf8Decode4 {b b2 b3 b4 : Nat} (hs : utf8Second4 b b2 = true)
    (hc : utf8Cont b3 = true) (hd : utf8Cont b4 = true) :
    isScalar ((b - 0xF0) * 262144 + (b2 - 0x80) * 4096 + (b3 - 0x80) * 64 + (b4 - 0x80)) ∧
      utf8EncodeScalar
          ((b - 0xF0) * 262144 + (b2 - 0x80) * 4096 + (b3 - 0x80) * 64 + (b4 - 0x80)) =
        [b, b2, b3, b4] := by
  rw [utf8Second4_iff] at hs
  rw [utf8Cont_iff] at hc
  rw [utf8Cont_iff] at hd
  have hrange : 0x10000 ≤ (b - 0xF0) * 262144 + (b2 - 0x80) * 4096 + (b3 - 0x80) * 64 + (b4 - 0x80) ∧
      (b - 0xF0) * 262144 + (b2 - 0x80) * 4096 + (b3 - 0x80) * 64 + (b4 - 0x80) < 0x110000 := by
    rcases hs with ⟨hb, hb2⟩ | ⟨hb, hb', hb2⟩ | ⟨hb, hb2⟩ <;> constructor <;> omega
  constructor
  · exact Or.inr ⟨by omega, by omega⟩
  · rw [utf8EncodeScalar_four (by omega)]
    simp only [List.cons.injEq, and_true]
    refine ⟨by omega, by omega, by omega, by omega⟩

/-- Inversion for the validator on a nonempty list: either the list starts
with a complete well-formed character, or validation fails right at the
start. -/
theorem utf8Validate_cons_cases (b : Nat) (rest : List Nat) :
    (∃ v tail, isScalar v ∧ b :: rest = utf8EncodeScalar v ++ tail) ∨
    (∃ e, utf8Validate (b :: rest) = .err 0 e) := by
  by_cases h1 : b < 0x80
  · refine Or.inl ⟨b, rest, Or.inl (by omega), ?_⟩
    rw [utf8EncodeScalar_one h1]; rfl
  by_cases h2 : b < 0xC2
  · refine Or.inr ⟨some 1, ?_⟩
    rw [utf8Validate.eq_def]; dsimp only
    rw [if_neg h1, if_pos h2]
  by_cases h3 : b < 0xE0
  · match rest with
    | [] =>
      refine Or.inr ⟨none, ?_⟩
      rw [utf8Validate.eq_def]; dsimp only
      rw [if_neg h1, if_neg h2, if_pos h3]
    | b2 :: r =>
      by_cases hc : utf8Cont b2 = true
      · obtain ⟨hv, henc⟩ := utf8Decode2 (by omega) h3 hc
        exact Or.inl ⟨_, r, hv, by rw [henc]; rfl⟩
      · refine Or.inr ⟨some 1, ?_⟩
        rw [utf8Validate.eq_def]; dsimp only
        rw [if_neg h1, if_neg h2, if_pos h3, if_neg hc]
  by_cases h4 : b < 0xF0
  · match rest with
    | [] =>
      refine Or.inr ⟨none, ?_⟩
      rw [utf8Validate.eq_def]; dsimp only
      rw [if_neg h1, if_neg h2, if_neg h3, if_pos h4]
    | b2 :: r =>
      by_cases hs : utf8Second3 b b2 = true
      · match r with
        | [] =>
          refine Or.inr ⟨none, ?_⟩
          rw [utf8Validate.eq_def]; dsimp only
          rw [if_neg h1, if_neg h2, if_neg h3, if_pos h4, if_pos hs]
        | b3 :: r2 =>
          by_cases hc : utf8Cont b3 = true
          · obtain ⟨hv, henc⟩ := utf8Decode3 hs hc
            exact Or.inl ⟨_, r2, hv, by rw [henc]; rfl⟩
          · refine Or.inr ⟨some 2, ?_⟩
            rw [utf8Validate.eq_def]; dsimp only
            rw [if_neg h1, if_neg h2, if_neg h3, if_pos h4, if_pos hs, if_neg hc]
      · refine Or.inr ⟨some 1, ?_⟩
        rw [utf8Validate.eq_def]; dsimp only
        rw [if_neg h1, if_neg h2, if_neg h3, if_pos h4, if_neg hs]
  by_cases h5 : b < 0xF5
  · match rest with
    | [] =>
      refine Or.inr ⟨none, ?_⟩
      rw [utf8Validate.eq_def]; dsimp only
      rw [if_neg h1, if_neg h2, if_neg h3, if_neg h4, if_pos h5]
    | b2 :: r =>
      by_cases hs : utf8Second4 b b2 = true
      · match r with
        | [] =>
          refine Or.inr ⟨none, ?_⟩
          rw [utf8Validate.eq_def]; dsimp only
          rw [if_neg h1, if_neg h2, if_neg h3, if_neg h4, if_pos h5, if_pos hs]
        | b3 :: r2 =>
          by_cases hc : utf8Cont b3 = true
          · match r2 with
            | [] =>
              refine Or.inr ⟨none, ?_⟩
              rw [utf8Validate.eq_def]; dsimp only
              rw [if_neg h1, if_neg h2, if_neg h3, if_neg h4, if_pos h5, if_pos hs,
                if_pos hc]
            | b4 :: r3 =>
              by_cases hd : utf8Cont b4 = true
              · obtain ⟨hv, henc⟩ := utf8Decode4 hs hc hd
                exact Or.inl ⟨_, r3, hv, by rw [henc]; rfl⟩
              · refine Or.inr ⟨some 3, ?_⟩
                rw [utf8Validate.eq_def]; dsimp only
                rw [if_neg h1, if_neg h2, if_neg h3, if_neg h4, if_pos h5, if_pos hs,
                  if_pos hc, if_neg hd]
          · refine Or.inr ⟨some 2, ?_⟩
            rw [utf8Validate.eq_def]; dsimp only
            rw [if_neg h1, if_neg h2, if_neg h3, if_neg h4, if_pos h5, if_pos hs, if_neg hc]
      · refine Or.inr ⟨some 1, ?_⟩
        rw [utf8Validate.eq_def]; dsimp only
        rw [if_neg h1, if_neg h2, if_neg h3, if_neg h4, if_pos h5, if_neg hs]
  · refine Or.inr ⟨some 1, ?_⟩
    rw [utf8Validate.eq_def]; dsimp only
    rw [if_neg h1, if_neg h2, if_neg h3, if_neg h4, if_neg h5]

/-- Soundness: valid text passes the validator. -/
theorem Utf8Valid.validate_ok {bs : List Nat} (h : Utf8Valid bs) :
    utf8Validate bs = .ok := by
  induction h with
  | nil => rfl
  | cons v rest hv hr ih => rw [utf8Validate_encode v hv rest, ih]; rfl

/-- Completeness: a list the validator accepts is valid text. -/
theorem utf8Validate_ok_valid {bs : List Nat} (h : utf8Validate bs = .ok) :
    Utf8Valid bs := by
  have H : ∀ n (bs : List Nat), bs.length ≤ n → utf8Validate bs = .ok → Utf8Valid bs := by
    intro n
    induction n with
    | zero =>
      intro bs hlen _
      match bs with
      | [] => exact .nil
    | succ n ih =>
      intro bs hlen h
      match bs with
      | [] => exact .nil
      | b :: rest =>
        rcases utf8Validate_cons_cases b rest with ⟨v, tail, hv, heq⟩ | ⟨e, he⟩
        · rw [heq, utf8Validate_encode v hv tail, shiftRes_eq_ok] at h
          have hlen1 : (utf8EncodeScalar v).length ≥ 1 :=
            List.length_pos.mpr (utf8EncodeScalar_ne_nil v)
          have htail : tail.length ≤ n := by
            have := congrArg List.length heq
            rw [List.length_append] at this
            simp only [List.length_cons] at this hlen
            omega
          rw [heq]
          exact .cons v tail hv (ih tail htail h)
        · rw [he] at h
          exact absurd h (by simp)
  exact H bs.length bs le_rfl h

theorem Utf8Valid.append {a b : List Nat} (ha : Utf8Valid a) (hb : Utf8Valid b) :
    Utf8Valid (a ++ b) := by
  induction ha with
  | nil => exact hb
  | cons v rest hv hr ih => rw [List.append_assoc]; exact .cons v (rest ++ b) hv ih

/-- The validator over valid text followed by anything: the valid head is
consumed and the result of the tail is shifted. -/
theorem utf8Validate_valid_append {p q : List Nat} (hp : Utf8Valid p) :
    utf8Validate (p ++ q) = shiftRes p.length (utf8Validate q) := by
  induction hp with
  | nil => rw [List.nil_append, List.length_nil, shiftRes_zero]
  | cons v rest hv hr ih =>
    rw [List.append_assoc, utf8Validate_encode v hv (rest ++ q), ih, shiftRes_comp,
      List.length_append]
    rw [Nat.add_comm rest.length]

/-- A list starting with a well-formed character never fails at offset 0. -/
theorem utf8Validate_encode_ne_err0 {v : Nat} (hv : isScalar v) (rest : List Nat)
    (e : Option Nat) : utf8Validate (utf8EncodeScalar v ++ rest) ≠ .err 0 e := by
  rw [utf8Validate_encode v hv rest]
  intro h
  rw [shiftRes_eq_err] at h
  obtain ⟨v0, _, hsum⟩ := h
  have hlen : (utf8EncodeScalar v).length ≥ 1 :=
    List.length_pos.mpr (utf8EncodeScalar_ne_nil v)
  omega

/-- Unique decoding: a concatenation starting with one encoded character
determines that character and the remainder. -/
theorem utf8EncodeScalar_append_inj {v w : Nat} {r r2 : List Nat}
    (hv : isScalar v) (hw : isScalar w)
    (h : utf8EncodeScalar v ++ r = utf8EncodeScalar w ++ r2) : v = w ∧ r = r2 := by
  have hv4 : v < 0x110000 := by rcases hv with h1 | ⟨_, h2⟩ <;> omega
  have hw4 : w < 0x110000 := by rcases hw with h1 | ⟨_, h2⟩ <;> omega
  by_cases a1 : v < 0x80 <;> by_cases b1 : w < 0x80
  · rw [utf8EncodeScalar_one a1, utf8EncodeScalar_one b1] at h
    simp only [List.cons_append, List.nil_append, List.cons.injEq] at h
    exact ⟨h.1, h.2⟩
  all_goals (
    by_cases a2 : v < 0x800 <;> by_cases b2 : w < 0x800 <;>
    by_cases a3 : v < 0x10000 <;> by_cases b3 : w < 0x10000 <;>
    first
    | (exfalso
       first
       | (rw [utf8EncodeScalar_one (by omega)] at h
          first
          | rw [utf8EncodeScalar_two (by omega) (by omega)] at h
          | rw [utf8EncodeScalar_three (by omega) (by omega)] at h
          | rw [utf8EncodeScalar_four (by omega)] at h
          simp only [List.cons_append, List.nil_append, List.cons.injEq] at h
          omega)
       | (first
          | rw [utf8EncodeScalar_two (by omega) (by omega)] at h
          | rw [utf8EncodeScalar_three (by omega) (by omega)] at h
          | rw [utf8EncodeScalar_four (by omega)] at h
          first
          | rw [utf8EncodeScalar_one (by omega)] at h
          | rw [utf8EncodeScalar_two (by omega) (by omega)] at h
          | rw [utf8EncodeScalar_three (by omega) (by omega)] at h
          | rw [utf8EncodeScalar_four (by omega)] at h
          simp only [List.cons_append, List.nil_append, List.cons.injEq] at h
          omega))
    | (first
       | rw [utf8EncodeScalar_two (by omega) (by omega),
           utf8EncodeScalar_two (by omega) (by omega)] at h
       | rw [utf8EncodeScalar_three (by omega) (by omega),
           utf8EncodeScalar_three (by omega) (by omega)] at h
       | rw [utf8EncodeScalar_four (by omega), utf8EncodeScalar_four (by omega)] at h
       simp only [List.cons_append, List.nil_append, List.cons.injEq] at h
       refine ⟨by omega, ?_⟩
       tauto))

/-- Error decomposition: valid_up_to marks a valid head, and the remainder
fails immediately with the same error kind. -/
theorem utf8Validate_err_decomp {bs : List Nat} {v : Nat} {e : Option Nat}
    (h : utf8Validate bs = .err v e) :
    v ≤ bs.length ∧ Utf8Valid (bs.take v) ∧ utf8Validate (bs.drop v) = .err 0 e := by
  have H : ∀ n (bs : List Nat), bs.length ≤ n → ∀ v e, utf8Validate bs = .err v e →
      v ≤ bs.length ∧ Utf8Valid (bs.take v) ∧ utf8Validate (bs.drop v) = .err 0 e := by
    intro n
    induction n with
    | zero =>
      intro bs hlen v e h
      match bs with
      | [] => exact absurd h (by simp [utf8Validate])
    | succ n ih =>
      intro bs hlen v e h
      match bs with
      | [] => exact absurd h (by simp [utf8Validate])
      | b :: rest =>
        rcases utf8Validate_cons_cases b rest with ⟨w, tail, hw, heq⟩ | ⟨e2, he⟩
        · rw [heq, utf8Validate_encode w hw tail, shiftRes_eq_err] at h
          obtain ⟨v0, htail, hsum⟩ := h
          have hlen1 : (utf8EncodeScalar w).length ≥ 1 :=
            List.length_pos.mpr (utf8EncodeScalar_ne_nil w)
          have hlen2 : tail.length ≤ n := by
            have := congrArg List.length heq
            rw [List.length_append] at this
            simp only [List.length_cons] at this hlen
            omega
          obtain ⟨hv0, hvalid, hdrop⟩ := ih tail hlen2 v0 e htail
          subst hsum
          rw [heq]
          refine ⟨by rw [List.length_append]; omega, ?_, ?_⟩
          · rw [Nat.add_comm, List.take_append]
            exact .cons w (tail.take v0) hw hvalid
          · rw [Nat.add_comm, List.drop_append]
            exact hdrop
        · rw [he] at h
          obtain ⟨hv, he2⟩ : v = 0 ∧ e2 = e := by
            cases h; exact ⟨rfl, rfl⟩
          subst hv
          subst he2
          exact ⟨Nat.zero_le _, .nil, he⟩
  exact H bs.length bs le_rfl v e h

/-- Cancellation: a valid head can be removed from a valid concatenation. -/
theorem Utf8Valid.of_append {p t : List Nat} (hp : Utf8Valid p)
    (hpt : Utf8Valid (p ++ t)) : Utf8Valid t := by
  apply utf8Validate_ok_valid
  have h := hpt.validate_ok
  rw [utf8Validate_valid_append hp, shiftRes_eq_ok] at h
  exact h

/-- A nonempty valid list starts with one encoded character. -/
theorem Utf8Valid.cons_decomp {bs : List Nat} (h : Utf8Valid bs) (hne : bs ≠ []) :
    ∃ v tail, isScalar v ∧ bs = utf8EncodeScalar v ++ tail ∧ Utf8Valid tail := by
  match bs with
  | [] => exact absurd rfl hne
  | b :: rest =>
    rcases utf8Validate_cons_cases b rest with ⟨v, tail, hv, heq⟩ | ⟨e, he⟩
    · have hv1 : Utf8Valid (utf8EncodeScalar v) := by
        have := Utf8Valid.cons v [] hv .nil
        rwa [List.append_nil] at this
      refine ⟨v, tail, hv, heq, ?_⟩
      rw [heq] at h
      exact hv1.of_append h
    · rw [h.validate_ok] at he
      exact absurd he (by simp)

/-- valid_up_to is the longest valid head: any valid take is no longer. -/
theorem utf8Validate_err_longest {bs : List Nat} {v : Nat} {e : Option Nat} {n : Nat}
    (h : utf8Validate bs = .err v e) (hn : Utf8Valid (bs.take n)) : n ≤ v := by
  obtain ⟨hvle, hvalid, hdrop⟩ := utf8Validate_err_decomp h
  by_contra hlt
  push_neg at hlt
  rcases le_or_lt n bs.length with hcase | hcase
  · have hvlen : v < bs.length := by
      rcases Nat.lt_or_ge v bs.length with h1 | h1
      · exact h1
      · exfalso
        have hd : bs.drop v = [] := List.drop_eq_nil_of_le h1
        rw [hd] at hdrop
        exact absurd hdrop (by simp [utf8Validate])
    have hsplit : bs.take n = bs.take v ++ (bs.drop v).take (n - v) := by
      have hvn : v + (n - v) = n := by omega
      rw [← hvn, List.take_add, Nat.add_sub_cancel_left]
    rw [hsplit] at hn
    have hrest : Utf8Valid ((bs.drop v).take (n - v)) := hvalid.of_append hn
    have hne : (bs.drop v).take (n - v) ≠ [] := by
      intro hnil
      have := congrArg List.length hnil
      simp only [List.length_take, List.length_drop, List.length_nil] at this
      omega
    obtain ⟨w, tail, hw, heq, _⟩ := hrest.cons_decomp hne
    have hfull : bs.drop v = utf8EncodeScalar w ++ (tail ++ ((bs.drop v).drop (n - v))) := by
      conv_lhs => rw [← List.take_append_drop (n - v) (bs.drop v)]
      rw [heq, List.append_assoc]
    rw [hfull] at hdrop
    exact utf8Validate_encode_ne_err0 hw _ e hdrop
  · have hall : bs.take n = bs := List.take_of_length_le (by omega)
    rw [hall] at hn
    rw [hn.validate_ok] at h
    exact absurd h (by simp)

/-- A confirmed-invalid failure at the start is stable under appending more
bytes: error_len = some never becomes valid with more data. -/
theorem utf8Validate_err0_some_append {bs : List Nat} {l : Nat} (ext : List Nat)
    (h : utf8Validate bs = .err 0 (some l)) :
    utf8Validate (bs ++ ext) = .err 0 (some l) := by
  match bs with
  | [] => exact absurd h (by simp [utf8Validate])
  | b :: rest =>
    rw [List.cons_append]
    by_cases h1 : b < 0x80
    · exfalso
      rw [utf8Validate.eq_def] at h; dsimp only at h
      rw [if_pos h1, shiftRes_eq_err] at h
      obtain ⟨v0, _, hsum⟩ := h
      omega
    by_cases h2 : b < 0xC2
    · have hv : utf8Validate (b :: rest) = .err 0 (some 1) := by
        rw [utf8Validate.eq_def]; dsimp only; rw [if_neg h1, if_pos h2]
      have hg : utf8Validate (b :: (rest ++ ext)) = .err 0 (some 1) := by
        rw [utf8Validate.eq_def]; dsimp only; rw [if_neg h1, if_pos h2]
      rw [hg]; rw [hv] at h; exact h
    by_cases h3 : b < 0xE0
    · match rest with
      | [] =>
        exfalso
        rw [utf8Validate.eq_def] at h; dsimp only at h
        rw [if_neg h1, if_neg h2, if_pos h3] at h
        simp at h
      | b2 :: r =>
        rw [List.cons_append]
        by_cases hc : utf8Cont b2 = true
        · exfalso
          rw [utf8Validate.eq_def] at h; dsimp only at h
          rw [if_neg h1, if_neg h2, if_pos h3, if_pos hc, shiftRes_eq_err] at h
          obtain ⟨v0, _, hsum⟩ := h
          omega
        · have hv : utf8Validate (b :: b2 :: r) = .err 0 (some 1) := by
            rw [utf8Validate.eq_def]; dsimp only
            rw [if_neg h1, if_neg h2, if_pos h3, if_neg hc]
          have hg : utf8Validate (b :: b2 :: (r ++ ext)) = .err 0 (some 1) := by
            rw [utf8Validate.eq_def]; dsimp only
            rw [if_neg h1, if_neg h2, if_pos h3, if_neg hc]
          rw [hg]; rw [hv] at h; exact h
    by_cases h4 : b < 0xF0
    · match rest with
      | [] =>
        exfalso
        rw [utf8Validate.eq_def] at h; dsimp only at h
        rw [if_neg h1, if_neg h2, if_neg h3, if_pos h4] at h
        simp at h
      | b2 :: r =>
        rw [List.cons_append]
        by_cases hs : utf8Second3 b b2 = true
        · match r with
          | [] =>
            exfalso
            rw [utf8Validate.eq_def] at h; dsimp only at h
            rw [if_neg h1, if_neg h2, if_neg h3, if_pos h4, if_pos hs] at h
            simp at h
          | b3 :: r2 =>
            rw [List.cons_append]
            by_cases hc : utf8Cont b3 = true
            · exfalso
              rw [utf8Validate.eq_def] at h; dsimp only at h
              rw [if_neg h1, if_neg h2, if_neg h3, if_pos h4, if_pos hs, if_pos hc,
                shiftRes_eq_err] at h
              obtain ⟨v0, _, hsum⟩ := h
              omega
            · have hv : utf8Validate (b :: b2 :: b3 :: r2) = .err 0 (some 2) := by
                rw [utf8Validate.eq_def]; dsimp only
                rw [if_neg h1, if_neg h2, if_neg h3, if_pos h4, if_pos hs, if_neg hc]
              have hg : utf8Validate (b :: b2 :: b3 :: (r2 ++ ext)) = .err 0 (some 2) := by
                rw [utf8Validate.eq_def]; dsimp only
                rw [if_neg h1, if_neg h2, if_neg h3, if_pos h4, if_pos hs, if_neg hc]
              rw [hg]; rw [hv] at h; exact h
        · have hv : utf8Validate (b :: b2 :: r) = .err 0 (some 1) := by
            rw [utf8Validate.eq_def]; dsimp only
            rw [if_neg h1, if_neg h2, if_neg h3, if_pos h4, if_neg hs]
          have hg : utf8Validate (b :: b2 :: (r ++ ext)) = .err 0 (some 1) := by
            rw [utf8Validate.eq_def]; dsimp only
            rw [if_neg h1, if_neg h2, if_neg h3, if_pos h4, if_neg hs]
          rw [hg]; rw [hv] at h; exact h
    by_cases h5 : b < 0xF5
    · match rest with
      | [] =>
        exfalso
        rw [utf8Validate.eq_def] at h; dsimp only at h
        rw [if_neg h1, if_neg h2, if_neg h3, if_neg h4, if_pos h5] at h
        simp at h
      | b2 :: r =>
        rw [List.cons_append]
        by_cases hs : utf8Second4 b b2 = true
        · match r with
          | [] =>
            exfalso
            rw [utf8Validate.eq_def] at h; dsimp only at h
            rw [if_neg h1, if_neg h2, if_neg h3, if_neg h4, if_pos h5, if_pos hs] at h
            simp at h
          | b3 :: r2 =>
            rw [List.cons_append]
            by_cases hc : utf8Cont b3 = true
            · match r2 with
              | [] =>
                exfalso
                rw [utf8Validate.eq_def] at h; dsimp only at h
                rw [if_neg h1, if_neg h2, if_neg h3, if_neg h4, if_pos h5, if_pos hs,
                  if_pos hc] at h
                simp at h
              | b4 :: r3 =>
                rw [List.cons_append]
                by_cases hd : utf8Cont b4 = true
                · exfalso
                  rw [utf8Validate.eq_def] at h; dsimp only at h
                  rw [if_neg h1, if_neg h2, if_neg h3, if_neg h4, if_pos h5, if_pos hs,
                    if_pos hc, if_pos hd, shiftRes_eq_err] at h
                  obtain ⟨v0, _, hsum⟩ := h
                  omega
                · have hv : utf8Validate (b :: b2 :: b3 :: b4 :: r3) = .err 0 (some 3) := by
                    rw [utf8Validate.eq_def]; dsimp only
                    rw [if_neg h1, if_neg h2, if_neg h3, if_neg h4, if_pos h5, if_pos hs,
                      if_pos hc, if_neg hd]
                  have hg : utf8Validate (b :: b2 :: b3 :: b4 :: (r3 ++ ext)) =
                      .err 0 (some 3) := by
                    rw [utf8Validate.eq_def]; dsimp only
                    rw [if_neg h1, if_neg h2, if_neg h3, if_neg h4, if_pos h5, if_pos hs,
                      if_pos hc, if_neg hd]
                  rw [hg]; rw [hv] at h; exact h
            · have hv : utf8Validate (b :: b2 :: b3 :: r2) = .err 0 (some 2) := by
                rw [utf8Validate.eq_def]; dsimp only
                rw [if_neg h1, if_neg h2, if_neg h3, if_neg h4, if_pos h5, if_pos hs,
                  if_neg hc]
              have hg : utf8Validate (b :: b2 :: b3 :: (r2 ++ ext)) = .err 0 (some 2) := by
                rw [utf8Validate.eq_def]; dsimp only
                rw [if_neg h1, if_neg h2, if_neg h3, if_neg h4, if_pos h5, if_pos hs,
                  if_neg hc]
              rw [hg]; rw [hv] at h; exact h
        · have hv : utf8Validate (b :: b2 :: r) = .err 0 (some 1) := by
            rw [utf8Validate.eq_def]; dsimp only
            rw [if_neg h1, if_neg h2, if_neg h3, if_neg h4, if_pos h5, if_neg hs]
          have hg : utf8Validate (b :: b2 :: (r ++ ext)) = .err 0 (some 1) := by
            rw [utf8Validate.eq_def]; dsimp only
            rw [if_neg h1, if_neg h2, if_neg h3, if_neg h4, if_pos h5, if_neg hs]
          rw [hg]; rw [hv] at h; exact h
    · have hv : utf8Validate (b :: rest) = .err 0 (some 1) := by
        rw [utf8Validate.eq_def]; dsimp only
        rw [if_neg h1, if_neg h2, if_neg h3, if_neg h4, if_neg h5]
      have hg : utf8Validate (b :: (rest ++ ext)) = .err 0 (some 1) := by
        rw [utf8Validate.eq_def]; dsimp only
        rw [if_neg h1, if_neg h2, if_neg h3, if_neg h4, if_neg h5]
      rw [hg]; rw [hv] at h; exact h

/-- Shapes of an input that fails only by ending mid-character. -/
theorem utf8Validate_err0_none_cases {bs : List Nat}
    (h : utf8Validate bs = .err 0 none) :
    (∃ b, bs = [b] ∧ 0xC2 ≤ b ∧ b < 0xF5) ∨
    (∃ b b2, bs = [b, b2] ∧ 0xE0 ≤ b ∧ b < 0xF0 ∧ utf8Second3 b b2 = true) ∨
    (∃ b b2, bs = [b, b2] ∧ 0xF0 ≤ b ∧ b < 0xF5 ∧ utf8Second4 b b2 = true) ∨
    (∃ b b2 b3, bs = [b, b2, b3] ∧ 0xF0 ≤ b ∧ b < 0xF5 ∧ utf8Second4 b b2 = true ∧
      utf8Cont b3 = true) := by
  match bs with
  | [] => exact absurd h (by simp [utf8Validate])
  | b :: rest =>
    by_cases h1 : b < 0x80
    · exfalso
      rw [utf8Validate.eq_def] at h; dsimp only at h
      rw [if_pos h1, shiftRes_eq_err] at h
      obtain ⟨v0, _, hsum⟩ := h
      omega
    by_cases h2 : b < 0xC2
    · exfalso
      rw [utf8Validate.eq_def] at h; dsimp only at h
      rw [if_neg h1, if_pos h2] at h
      simp at h
    by_cases h3 : b < 0xE0
    · match rest with
      | [] => exact Or.inl ⟨b, rfl, by omega, by omega⟩
      | b2 :: r =>
        exfalso
        rw [utf8Validate.eq_def] at h; dsimp only at h
        rw [if_neg h1, if_neg h2, if_pos h3] at h
        by_cases hc : utf8Cont b2 = true
        · rw [if_pos hc, shiftRes_eq_err] at h
          obtain ⟨v0, _, hsum⟩ := h
          omega
        · rw [if_neg hc] at h
          simp at h
    by_cases h4 : b < 0xF0
    · match rest with
      | [] => exact Or.inl ⟨b, rfl, by omega, by omega⟩
      | b2 :: r =>
        by_cases hs : utf8Second3 b b2 = true
        · match r with
          | [] => exact Or.inr (Or.inl ⟨b, b2, rfl, by omega, by omega, hs⟩)
          | b3 :: r2 =>
            exfalso
            rw [utf8Validate.eq_def] at h; dsimp only at h
            rw [if_neg h1, if_neg h2, if_neg h3, if_pos h4, if_pos hs] at h
            by_cases hc : utf8Cont b3 = true
            · rw [if_pos hc, shiftRes_eq_err] at h
              obtain ⟨v0, _, hsum⟩ := h
              omega
            · rw [if_neg hc] at h
              simp at h
        · exfalso
          rw [utf8Validate.eq_def] at h; dsimp only at h
          rw [if_neg h1, if_neg h2, if_neg h3, if_pos h4, if_neg hs] at h
          simp at h
    by_cases h5 : b < 0xF5
    · match rest with
      | [] => exact Or.inl ⟨b, rfl, by omega, by omega⟩
      | b2 :: r =>
        by_cases hs : utf8Second4 b b2 = true
        · match r with
          | [] => exact Or.inr (Or.inr (Or.inl ⟨b, b2, rfl, by omega, by omega, hs⟩))
          | b3 :: r2 =>
            by_cases hc : utf8Cont b3 = true
            · match r2 with
              | [] =>
                exact Or.inr (Or.inr (Or.inr ⟨b, b2, b3, rfl, by omega, by omega, hs, hc⟩))
              | b4 :: r3 =>
                exfalso
                rw [utf8Validate.eq_def] at h; dsimp only at h
                rw [if_neg h1, if_neg h2, if_neg h3, if_neg h4, if_pos h5, if_pos hs,
                  if_pos hc] at h
                by_cases hd : utf8Cont b4 = true
                · rw [if_pos hd, shiftRes_eq_err] at h
                  obtain ⟨v0, _, hsum⟩ := h
                  omega
                · rw [if_neg hd] at h
                  simp at h
            · exfalso
              rw [utf8Validate.eq_def] at h; dsimp only at h
              rw [if_neg h1, if_neg h2, if_neg h3, if_neg h4, if_pos h5, if_pos hs,
                if_neg hc] at h
              simp at h
        · exfalso
          rw [utf8Validate.eq_def] at h; dsimp only at h
          rw [if_neg h1, if_neg h2, if_neg h3, if_neg h4, if_pos h5, if_neg hs] at h
          simp at h
    · exfalso
      rw [utf8Validate.eq_def] at h; dsimp only at h
      rw [if_neg h1, if_neg h2, if_neg h3, if_neg h4, if_neg h5] at h
      simp at h

/-- An input that fails only by ending mid-character can be completed: the
missing continuation bytes (at most 3) extend it to valid text. -/
theorem utf8Validate_err0_none_extend {bs : List Nat}
    (h : utf8Validate bs = .err 0 none) :
    bs.length ≤ 3 ∧ ∃ ext, Utf8Valid (bs ++ ext) := by
  rcases utf8Validate_err0_none_cases h with
    ⟨b, hbs, hb1, hb2⟩ | ⟨b, b2, hbs, hb1, hb2, hs⟩ |
    ⟨b, b2, hbs, hb1, hb2, hs⟩ | ⟨b, b2, b3, hbs, hb1, hb2, hs, hc⟩
  · subst hbs
    refine ⟨by simp, ?_⟩
    by_cases hx : b < 0xE0
    · obtain ⟨hv, henc⟩ := utf8Decode2 hb1 hx (@utf8Cont_true 0x80 (by omega) (by omega))
      refine ⟨[0x80], ?_⟩
      have := Utf8Valid.cons _ [] hv .nil
      rwa [List.append_nil, henc] at this
    · by_cases hy : b < 0xF0
      · have hs3 : utf8Second3 b (if b = 0xE0 then 0xA0 else 0x80) = true := by
          rw [utf8Second3_iff]
          by_cases hE : b = 0xE0
          · rw [if_pos hE]; exact Or.inl ⟨hE, by omega, by omega⟩
          · rw [if_neg hE]
            by_cases hD : b = 0xED
            · exact Or.inr (Or.inr (Or.inl ⟨hD, by omega, by omega⟩))
            · by_cases hE1 : b ≤ 0xEC
              · exact Or.inr (Or.inl ⟨by omega, by omega, by omega, by omega⟩)
              · exact Or.inr (Or.inr (Or.inr ⟨by omega, by omega, by omega, by omega⟩))
        obtain ⟨hv, henc⟩ := utf8Decode3 hs3 (@utf8Cont_true 0x80 (by omega) (by omega))
        refine ⟨[if b = 0xE0 then 0xA0 else 0x80, 0x80], ?_⟩
        have := Utf8Valid.cons _ [] hv .nil
        rwa [List.append_nil, henc] at this
      · have hs4 : utf8Second4 b (if b = 0xF0 then 0x90 else 0x80) = true := by
          rw [utf8Second4_iff]
          by_cases hF : b = 0xF0
          · rw [if_pos hF]; exact Or.inl ⟨hF, by omega, by omega⟩
          · rw [if_neg hF]
            by_cases hF4 : b = 0xF4
            · exact Or.inr (Or.inr ⟨hF4, by omega, by omega⟩)
            · exact Or.inr (Or.inl ⟨by omega, by omega, by omega, by omega⟩)
        obtain ⟨hv, henc⟩ := utf8Decode4 hs4 (@utf8Cont_true 0x80 (by omega) (by omega))
          (@utf8Cont_true 0x80 (by omega) (by omega))
        refine ⟨[if b = 0xF0 then 0x90 else 0x80, 0x80, 0x80], ?_⟩
        have := Utf8Valid.cons _ [] hv .nil
        rwa [List.append_nil, henc] at this
  · subst hbs
    refine ⟨by simp, ?_⟩
    obtain ⟨hv, henc⟩ := utf8Decode3 hs (@utf8Cont_true 0x80 (by omega) (by omega))
    refine ⟨[0x80], ?_⟩
    have := Utf8Valid.cons _ [] hv .nil
    rwa [List.append_nil, henc] at this
  · subst hbs
    refine ⟨by simp, ?_⟩
    obtain ⟨hv, henc⟩ := utf8Decode4 hs (@utf8Cont_true 0x80 (by omega) (by omega))
      (@utf8Cont_true 0x80 (by omega) (by omega))
    refine ⟨[0x80, 0x80], ?_⟩
    have := Utf8Valid.cons _ [] hv .nil
    rwa [List.append_nil, henc] at this
  · subst hbs
    refine ⟨by simp, ?_⟩
    obtain ⟨hv, henc⟩ := utf8Decode4 hs hc (@utf8Cont_true 0x80 (by omega) (by omega))
    refine ⟨[0x80], ?_⟩
    have := Utf8Valid.cons _ [] hv .nil
    rwa [List.append_nil, henc] at this

/-- C5: Boundary Reassembler contract. For every byte buffer,
partial_from_utf8 (i) returns the whole buffer with an empty trailing part
when it is entirely valid text; (ii) whenever it returns (v, t), v is the
longest valid leading text, t has at most 3 bytes, and a nonempty t means
the buffer failed to decode only because it ends mid-character (it is not
valid but extends to valid text); (iii) an error carries in validUpTo the
byte offset of the first confirmed-invalid sequence (the longest valid head
ends there and what starts there can never become valid), and errors occur
exactly when (iv) the buffer can never become valid by appending bytes. -/
theorem partialFromUtf8_boundary_contract (buf : List Nat) :
    (Utf8Valid buf → partialFromUtf8 buf = .ok (buf, [])) ∧
    (∀ v t, partialFromUtf8 buf = .ok (v, t) →
      buf = v ++ t ∧ Utf8Valid v ∧ t.length ≤ 3 ∧
      (∀ n, n ≤ buf.length → Utf8Valid (buf.take n) → n ≤ v.length) ∧
      (t ≠ [] → ¬ Utf8Valid buf ∧ ∃ ext, Utf8Valid (buf ++ ext))) ∧
    (∀ e, partialFromUtf8 buf = .error e →
      Utf8Valid (buf.take e.validUpTo) ∧
      (∀ n, Utf8Valid (buf.take n) → n ≤ e.validUpTo) ∧
      (∀ ext, ¬ Utf8Valid (buf.drop e.validUpTo ++ ext)) ∧
      (∀ ext, ¬ Utf8Valid (buf ++ ext))) ∧
    ((∀ ext, ¬ Utf8Valid (buf ++ ext)) → ∃ e, partialFromUtf8 buf = .error e) := by
  refine ⟨?_, ?_, ?_, ?_⟩
  · intro h
    rw [partialFromUtf8, h.validate_ok]
  · intro v t hok
    rw [partialFromUtf8] at hok
    match hval : utf8Validate buf with
    | .ok =>
      rw [hval] at hok
      obtain ⟨hv, ht⟩ : buf = v ∧ ([] : List Nat) = t := by
        cases hok; exact ⟨rfl, rfl⟩
      subst hv; subst ht
      refine ⟨by simp, utf8Validate_ok_valid hval, by simp, fun n hn _ => hn, by simp⟩
    | .err v0 (some l) => rw [hval] at hok; cases hok
    | .err v0 none =>
      rw [hval] at hok
      obtain ⟨hv, ht⟩ : buf.take v0 = v ∧ buf.drop v0 = t := by
        cases hok; exact ⟨rfl, rfl⟩
      subst hv; subst ht
      obtain ⟨hle, hvalid, hdrop⟩ := utf8Validate_err_decomp hval
      obtain ⟨hlen3, ext, hext⟩ := utf8Validate_err0_none_extend hdrop
      refine ⟨(List.take_append_drop v0 buf).symm, hvalid, by simpa using hlen3, ?_, ?_⟩
      · intro n _ hn
        have := utf8Validate_err_longest hval hn
        rwa [List.length_take, Nat.min_eq_left hle]
      · intro hne
        refine ⟨fun hvb => (by rw [hvb.validate_ok] at hval; cases hval), ext, ?_⟩
        have : buf ++ ext = buf.take v0 ++ (buf.drop v0 ++ ext) := by
          rw [← List.append_assoc, List.take_append_drop]
        rw [this]
        exact hvalid.append hext
  · intro e herr
    rw [partialFromUtf8] at herr
    match hval : utf8Validate buf with
    | .ok => rw [hval] at herr; cases herr
    | .err v0 none => rw [hval] at herr; cases herr
    | .err v0 (some l) =>
      rw [hval] at herr
      obtain he : (⟨v0, some l⟩ : Utf8Err) = e := by cases herr; rfl
      subst he
      obtain ⟨hle, hvalid, hdrop⟩ := utf8Validate_err_decomp hval
      refine ⟨hvalid, ?_, ?_, ?_⟩
      · intro n hn
        exact utf8Validate_err_longest hval hn
      · intro ext hvext
        have := hvext.validate_ok
        rw [utf8Validate_err0_some_append ext hdrop] at this
        cases this
      · intro ext hvext
        have hsplit : buf ++ ext = buf.take v0 ++ (buf.drop v0 ++ ext) := by
          rw [← List.append_assoc, List.take_append_drop]
        rw [hsplit] at hvext
        have hrest := hvalid.of_append hvext
        have := hrest.validate_ok
        rw [utf8Validate_err0_some_append ext hdrop] at this
        cases this
  · intro hnever
    rw [partialFromUtf8]
    match hval : utf8Validate buf with
    | .ok =>
      exfalso
      refine hnever [] ?_
      rw [List.append_nil]
      exact utf8Validate_ok_valid hval
    | .err v0 none =>
      exfalso
      obtain ⟨hle, hvalid, hdrop⟩ := utf8Validate_err_decomp hval
      obtain ⟨_, ext, hext⟩ := utf8Validate_err0_none_extend hdrop
      refine hnever ext ?_
      have : buf ++ ext = buf.take v0 ++ (buf.drop v0 ++ ext) := by
        rw [← List.append_assoc, List.take_append_drop]
      rw [this]
      exact hvalid.append hext
    | .err v0 (some l) => exact ⟨⟨v0, some l⟩, rfl⟩

/-- Witness: the contract applied to the concrete buffer 61 F0 (letter a
followed by the first byte of a four-byte character). -/
theorem partialFromUtf8_boundary_contract_witness :
    Utf8Valid [0x61] ∧ ([0xF0] : List Nat).length ≤ 3 ∧
      ¬ Utf8Valid [0x61, 0xF0] := by
  have h := (partialFromUtf8_boundary_contract [0x61, 0xF0]).2.1 [0x61] [0xF0] rfl
  exact ⟨h.2.1, h.2.2.1, (h.2.2.2.2 (by simp)).1⟩

/-! Model of src/io.rs: sinks, the adapter state, and its operations. -/

/-- io::Error kinds relevant to the adapter, with invalidData carrying the
wrapped Utf8Error fields. -/
inductive IOError where
  | writeZero : IOError
  | interrupted : IOError
  | invalidData (validUpTo : Nat) (errorLen : Option Nat) : IOError
  | other (tag : Nat) : IOError
deriving DecidableEq, Repr

/-- A deterministic byte sink (io::Write): write returns how many bytes
were accepted or an error, flush reports success or an error. -/
structure SinkOps (σ : Type) where
  write : σ → List Nat → (Except IOError Nat) × σ
  flush : σ → (Except IOError Unit) × σ

/-- State of IndentedWrite plus its inner IndentedStrWrite (io.rs):
the sink itself is threaded separately. -/
structure IoState where
  pfxBytes : List Nat
  unwrittenContinuationBytes : List Nat
  unwrittenPfx : List Nat
  trimUserIndents : Bool
  isTrimmingIndents : Bool
  unprocessedUserSuffix : List Nat
deriving DecidableEq, Repr

/-- indent_with_rules: construct the adapter state from a prefix string
(given by its scalar values), initial_indent and trim_user_indents. -/
def mkIoState (pfxScalars : List Nat) (initialIndent trimUserIndents : Bool) : IoState :=
  { pfxBytes := utf8EncodeScalars pfxScalars
    unwrittenContinuationBytes := []
    unwrittenPfx := if initialIndent then utf8EncodeScalars pfxScalars else []
    trimUserIndents := trimUserIndents
    isTrimmingIndents := trimUserIndents && initialIndent
    unprocessedUserSuffix := [] }

/-- The two identical retry loops at the top of IndentedStrWrite::write_str
(io.rs lines 151..168): keep offering the pending bytes to the sink; stop
with an early result on Ok(0) or any error, drop accepted bytes otherwise.
Returns (remaining pending bytes, sink state, early result if any). -/
def drainLoop {σ : Type} (sink : SinkOps σ) :
    List Nat → σ → List Nat × σ × Option (Except IOError Nat)
  | [], s => ([], s, none)
  | b :: pending, s =>
    match sink.write s (b :: pending) with
    | (.ok n, s1) =>
      if n = 0 then (b :: pending, s1, some (.ok 0))
      else drainLoop sink ((b :: pending).drop n) s1
    | (.error e, s1) => (b :: pending, s1, some (.error e))
termination_by l _ => l.length
decreasing_by simp [List.length_drop]; omega

/-- buf.find of the newline character, mapped to idx + 1 as in io.rs. -/
def findNlBoundary : List Nat → Option Nat
  | [] => none
  | b :: rest => if b = 10 then some 1 else (findNlBoundary rest).map (· + 1)

/-- Decode one leading UTF-8 character: its scalar value and width. Used
only to model str::trim_start at the byte level. -/
def utf8DecodeOne : List Nat → Option (Nat × Nat)
  | [] => none
  | b :: rest =>
    if b < 0x80 then some (b, 1)
    else if 0xC2 ≤ b ∧ b < 0xE0 then
      match rest with
      | b2 :: _ => if utf8Cont b2 then some ((b - 0xC0) * 64 + (b2 - 0x80), 2) else none
      | [] => none
    else if 0xE0 ≤ b ∧ b < 0xF0 then
      match rest with
      | b2 :: b3 :: _ =>
        if utf8Second3 b b2 && utf8Cont b3 then
          some ((b - 0xE0) * 4096 + (b2 - 0x80) * 64 + (b3 - 0x80), 3)
        else none
      | _ => none
    else if 0xF0 ≤ b ∧ b < 0xF5 then
      match rest with
      | b2 :: b3 :: b4 :: _ =>
        if utf8Second4 b b2 && utf8Cont b3 && utf8Cont b4 then
          some ((b - 0xF0) * 262144 + (b2 - 0x80) * 4096 + (b3 - 0x80) * 64 + (b4 - 0x80), 4)
        else none
      | _ => none
    else none

theorem utf8DecodeOne_pos {bs : List Nat} {v w : Nat}
    (h : utf8DecodeOne bs = some (v, w)) : 1 ≤ w ∧ bs ≠ [] := by
  match bs with
  | [] => exact absurd h (by simp [utf8DecodeOne])
  | b :: rest =>
    refine ⟨?_, by simp⟩
    rw [utf8DecodeOne.eq_def] at h
    dsimp only at h
    by_cases h1 : b < 0x80
    · rw [if_pos h1] at h; cases h; omega
    rw [if_neg h1] at h
    by_cases h2 : 0xC2 ≤ b ∧ b < 0xE0
    · rw [if_pos h2] at h
      rcases rest with _ | ⟨b2, r⟩
      · dsimp only at h; cases h
      · dsimp only at h
        by_cases hc : utf8Cont b2 = true
        · rw [if_pos hc] at h; cases h; omega
        · rw [if_neg hc] at h; cases h
    rw [if_neg h2] at h
    by_cases h3 : 0xE0 ≤ b ∧ b < 0xF0
    · rw [if_pos h3] at h
      rcases rest with _ | ⟨b2, r⟩
      · dsimp only at h; cases h
      · rcases r with _ | ⟨b3, r2⟩
        · dsimp only at h; cases h
        · dsimp only at h
          by_cases hc : (utf8Second3 b b2 && utf8Cont b3) = true
          · rw [if_pos hc] at h; cases h; omega
          · rw [if_neg hc] at h; cases h
    rw [if_neg h3] at h
    by_cases h4 : 0xF0 ≤ b ∧ b < 0xF5
    · rw [if_pos h4] at h
      rcases rest with _ | ⟨b2, r⟩
      · dsimp only at h; cases h
      · rcases r with _ | ⟨b3, r2⟩
        · dsimp only at h; cases h
        · rcases r2 with _ | ⟨b4, r3⟩
          · dsimp only at h; cases h
          · dsimp only at h
            by_cases hc : (utf8Second4 b b2 && utf8Cont b3 && utf8Cont b4) = true
            · rw [if_pos hc] at h; cases h; omega
            · rw [if_neg hc] at h; cases h
    rw [if_neg h4] at h
    cases h

/-- char::is_whitespace: the Unicode White_Space code points. -/
def rustIsWhitespace (v : Nat) : Bool :=
  decide ((0x09 ≤ v ∧ v ≤ 0x0D) ∨ v = 0x20 ∨ v = 0x85 ∨ v = 0xA0 ∨ v = 0x1680 ∨
    (0x2000 ≤ v ∧ v ≤ 0x200A) ∨ v = 0x2028 ∨ v = 0x2029 ∨ v = 0x202F ∨ v = 0x205F ∨
    v = 0x3000)

/-- str::trim_start at the byte level: drop leading whitespace characters. -/
def trimStartUtf8 (bs : List Nat) : List Nat :=
  match h : utf8DecodeOne bs with
  | some (v, w) => if rustIsWhitespace v then trimStartUtf8 (bs.drop w) else bs
  | none => bs
termination_by bs.length
decreasing_by
  obtain ⟨h1, h2⟩ := utf8DecodeOne_pos h
  have : bs.length ≠ 0 := by
    intro hz
    exact h2 (List.length_eq_zero.mp hz)
  simp [List.length_drop]
  omega

/-- Body of IndentedStrWrite::write_str after the trimming check (io.rs
lines 147..206): drain pending continuation bytes, then the pending prefix,
then write up to the next newline boundary (restocking the pending prefix
after a fully written newline) or the whole buffer, buffering unwritten
continuation bytes and reporting them as written. -/
def ioWriteStrBody {σ : Type} (sink : SinkOps σ) (st : IoState) (buf : List Nat) (s : σ) :
    (Except IOError Nat) × IoState × σ :=
  match drainLoop sink st.unwrittenContinuationBytes s with
  | (c1, s1, some r) => (r, { st with unwrittenContinuationBytes := c1 }, s1)
  | (c1, s1, none) =>
    match drainLoop sink st.unwrittenPfx s1 with
    | (p1, s2, some r) =>
      (r, { st with unwrittenContinuationBytes := c1, unwrittenPfx := p1 }, s2)
    | (p1, s2, none) =>
      let st1 := { st with unwrittenContinuationBytes := c1, unwrittenPfx := p1 }
      match findNlBoundary buf with
      | none =>
        match sink.write s2 buf with
        | (.error e, s3) => (.error e, st1, s3)
        | (.ok written, s3) =>
          let newCont := (buf.drop written).takeWhile utf8Cont
          (.ok (written + newCont.length),
            { st1 with
              unwrittenContinuationBytes := st1.unwrittenContinuationBytes ++ newCont },
            s3)
      | some nlb =>
        let uptoNewline := buf.take nlb
        match sink.write s2 uptoNewline with
        | (.error e, s3) => (.error e, st1, s3)
        | (.ok written, s3) =>
          if written = uptoNewline.length then
            (.ok written,
              { st1 with
                unwrittenPfx := st1.pfxBytes,
                isTrimmingIndents :=
                  if st1.trimUserIndents then true else st1.isTrimmingIndents },
              s3)
          else
            let newCont := (buf.drop written).takeWhile utf8Cont
            (.ok (written + newCont.length),
              { st1 with
                unwrittenContinuationBytes := st1.unwrittenContinuationBytes ++ newCont },
              s3)

/-- IndentedStrWrite::write_str (io.rs lines 135..206), including the
user-indent trimming check at the top. -/
def ioWriteStr {σ : Type} (sink : SinkOps σ) (st : IoState) (buf : List Nat) (s : σ) :
    (Except IOError Nat) × IoState × σ :=
  if st.isTrimmingIndents then
    let trimmed := trimStartUtf8 buf
    if trimmed.length ≠ buf.length then (.ok (buf.length - trimmed.length), st, s)
    else ioWriteStrBody sink { st with isTrimmingIndents := false } buf s
  else ioWriteStrBody sink st buf s

/-- The target length computed from the leading byte of the pending user
suffix via b & 0xF0 (io.rs lines 253..261); none models the unreachable!
panic, which is hit for valid two-byte leaders 0xD0..0xDF. -/
def utf8LeaderTargetLength (b : Nat) : Option Nat :=
  if b &&& 0xF0 = 0xC0 then some 2
  else if b &&& 0xF0 = 0xE0 then some 3
  else if b &&& 0xF0 = 0xF0 then some 4
  else none

/-- IndentedWrite::write (io.rs lines 229..308). The Option layer models
panics: none means the call hit an unreachable! assertion. -/
def ioWrite {σ : Type} (sink : SinkOps σ) (st : IoState) (buf : List Nat) (s : σ) :
    Option ((Except IOError Nat) × IoState × σ) :=
  if buf = [] then some (.ok 0, st, s)
  else
    match st.unprocessedUserSuffix with
    | [] =>
      match partialFromUtf8 buf with
      | .ok (validPart, suffix) =>
        if validPart = [] then
          some (.ok suffix.length,
            { st with unprocessedUserSuffix := st.unprocessedUserSuffix ++ suffix }, s)
        else some (ioWriteStr sink st validPart s)
      | .error e => some (.error (.invalidData e.validUpTo e.errorLen), st, s)
    | b :: _ =>
      let currentLength := st.unprocessedUserSuffix.length
      match utf8LeaderTargetLength b with
      | none => none
      | some targetLength =>
        let newSuffix := st.unprocessedUserSuffix ++ buf.take (targetLength - currentLength)
        match partialFromUtf8 newSuffix with
        | .error e =>
          some (.error (.invalidData e.validUpTo e.errorLen),
            { st with unprocessedUserSuffix := newSuffix.take currentLength }, s)
        | .ok (data, rest) =>
          if data = [] then
            some (.ok (newSuffix.length - currentLength),
              { st with unprocessedUserSuffix := newSuffix }, s)
          else if rest = [] then
            match ioWriteStr sink { st with unprocessedUserSuffix := newSuffix } data s with
            | (.ok written, st1, s1) =>
              if written > 0 then
                some (.ok (written - currentLength),
                  { st1 with unprocessedUserSuffix := [] }, s1)
              else
                some (.ok written,
                  { st1 with unprocessedUserSuffix := newSuffix.take currentLength }, s1)
            | (.error e, st1, s1) =>
              some (.error e,
                { st1 with unprocessedUserSuffix := newSuffix.take currentLength }, s1)
          else none

/-- The retry loop of IndentedStrWrite::flush (io.rs lines 104..112):
drain the pending continuation bytes, turning Ok(0) into WriteZero and
retrying on Interrupted; the fuel bounds the retries (the Rust loop can
spin forever against an always-interrupted sink). -/
def flushDrain {σ : Type} (sink : SinkOps σ) :
    Nat → List Nat → σ → Option ((Except IOError Unit) × List Nat × σ)
  | _, [], s => some (.ok (), [], s)
  | 0, b :: pending, _ => none
  | fuel + 1, b :: pending, s =>
    match sink.write s (b :: pending) with
    | (.ok 0, s1) => some (.error .writeZero, b :: pending, s1)
    | (.ok (n + 1), s1) => flushDrain sink fuel ((b :: pending).drop (n + 1)) s1
    | (.error .interrupted, s1) => flushDrain sink fuel (b :: pending) s1
    | (.error e, s1) => some (.error e, b :: pending, s1)

/-- IndentedStrWrite::flush and IndentedWrite::flush (io.rs lines 104..120
and 310..312): drain continuation bytes, then flush the sink. The
unwritten prefix and the unprocessed user suffix are never touched. -/
def ioFlush {σ : Type} (sink : SinkOps σ) (fuel : Nat) (st : IoState) (s : σ) :
    Option ((Except IOError Unit) × IoState × σ) :=
  match flushDrain sink fuel st.unwrittenContinuationBytes s with
  | none => none
  | some (.error e, c1, s1) =>
    some (.error e, { st with unwrittenContinuationBytes := c1 }, s1)
  | some (.ok _, c1, s1) =>
    let fr := sink.flush s1
    (some (fr.1, { st with unwrittenContinuationBytes := c1 }, fr.2))

/-- Driver: call write repeatedly, dropping accepted bytes, until the whole
piece has been reported accepted; none on error, panic or fuel exhaustion. -/
def ioWriteFully {σ : Type} (sink : SinkOps σ) :
    Nat → IoState → List Nat → σ → Option (IoState × σ)
  | 0, _, _, _ => none
  | fuel + 1, st, buf, s =>
    if buf = [] then some (st, s)
    else
      match ioWrite sink st buf s with
      | some (.ok n, st1, s1) => ioWriteFully sink fuel st1 (buf.drop n) s1
      | _ => none

/-- Driver: one write call per chunk, stopping silently at a panic. -/
def ioRunChunks {σ : Type} (sink : SinkOps σ) :
    List (List Nat) → IoState → σ → IoState × σ
  | [], st, s => (st, s)
  | c :: cs, st, s =>
    match ioWrite sink st c s with
    | some (_, st1, s1) => ioRunChunks sink cs st1 s1
    | none => (st, s)

/-- A Vec sink: accepts everything, records the bytes. -/
def vecSink : SinkOps (List Nat) where
  write := fun s buf => (.ok buf.length, s ++ buf)
  flush := fun s => (.ok (), s)

/-- A tracing sink that accepts everything and records every buffer it was
handed. State: (accepted bytes, list of offered buffers). -/
def fullTraceSink : SinkOps (List Nat × List (List Nat)) where
  write := fun s buf => (.ok buf.length, (s.1 ++ buf, s.2 ++ [buf]))
  flush := fun s => (.ok (), s)

/-- A tracing sink that accepts one byte per call (the OneByteAtATime test
wrapper) and records every buffer it was handed. -/
def oneByteTraceSink : SinkOps (List Nat × List (List Nat)) where
  write := fun s buf => (.ok (min 1 buf.length), (s.1 ++ buf.take 1, s.2 ++ [buf]))
  flush := fun s => (.ok (), s)

/-- A sink that accepts one byte on its first call and zero bytes on every
later call. State: (calls made so far, accepted bytes). -/
def oneThenZeroSink : SinkOps (Nat × List Nat) where
  write := fun s buf =>
    if s.1 = 0 then (.ok (min 1 buf.length), (s.1 + 1, s.2 ++ buf.take 1))
    else (.ok 0, (s.1 + 1, s.2))
  flush := fun s => (.ok (), s)

theorem drainLoop_nil {σ : Type} (sink : SinkOps σ) (s : σ) :
    drainLoop sink [] s = ([], s, none) := by
  simp [drainLoop]

/-- The drain loop leaves a suffix of its input: it never drains to empty
without saying so (none), and nonempty leftovers come from nonempty input. -/
theorem drainLoop_shape {σ : Type} (sink : SinkOps σ) (p : List Nat) (s : σ) :
    ∀ {p1 : List Nat} {s1 : σ} {o : Option (Except IOError Nat)},
      drainLoop sink p s = (p1, s1, o) →
      (o = none → p1 = []) ∧ (p1 ≠ [] → p ≠ []) := by
  have H : ∀ n (p : List Nat) (s : σ), p.length ≤ n →
      ∀ (p1 : List Nat) (s1 : σ) (o : Option (Except IOError Nat)),
        drainLoop sink p s = (p1, s1, o) →
        (o = none → p1 = []) ∧ (p1 ≠ [] → p ≠ []) := by
    intro n
    induction n with
    | zero =>
      intro p s hlen p1 s1 o h
      match p with
      | [] =>
        rw [drainLoop_nil] at h
        cases h
        exact ⟨fun _ => rfl, fun hne => absurd rfl hne⟩
    | succ n ih =>
      intro p s hlen p1 s1 o h
      match p with
      | [] =>
        rw [drainLoop_nil] at h
        cases h
        exact ⟨fun _ => rfl, fun hne => absurd rfl hne⟩
      | b :: pending =>
        rw [drainLoop.eq_def] at h
        dsimp only at h
        rcases hw : sink.write s (b :: pending) with ⟨res, sA⟩
        rw [hw] at h
        match res with
        | .error e =>
          dsimp only at h
          cases h
          exact ⟨fun hno => (by cases hno), fun _ => (by simp)⟩
        | .ok m =>
          dsimp only at h
          by_cases hm : m = 0
          · rw [if_pos hm] at h
            cases h
            exact ⟨fun hno => (by cases hno), fun _ => (by simp)⟩
          · rw [if_neg hm] at h
            have hlen2 : ((b :: pending).drop m).length ≤ n := by
              simp only [List.length_drop, List.length_cons]
              simp only [List.length_cons] at hlen
              omega
            obtain ⟨ha, hb⟩ := ih _ _ hlen2 p1 s1 o h
            exact ⟨ha, fun hne => by simp⟩
  intro p1 s1 o h
  exact H p.length p s le_rfl p1 s1 o h

/-- Mutual-exclusion and frame facts for write_str body: the pending prefix
and the pending continuation bytes are never both left nonempty, and the
configuration plus user suffix are untouched. -/
theorem ioWriteStrBody_inv {σ : Type} {sink : SinkOps σ} {st : IoState} {buf : List Nat}
    {s : σ} {r : Except IOError Nat} {st1 : IoState} {s1 : σ}
    (h : ioWriteStrBody sink st buf s = (r, st1, s1))
    (hinv : st.unwrittenPfx = [] ∨ st.unwrittenContinuationBytes = []) :
    (st1.unwrittenPfx = [] ∨ st1.unwrittenContinuationBytes = []) ∧
    st1.pfxBytes = st.pfxBytes ∧ st1.trimUserIndents = st.trimUserIndents ∧
    st1.unprocessedUserSuffix = st.unprocessedUserSuffix := by
  unfold ioWriteStrBody at h
  rcases hd1 : drainLoop sink st.unwrittenContinuationBytes s with ⟨c1, sA, o1⟩
  rw [hd1] at h
  obtain ⟨ho1, hne1⟩ := drainLoop_shape sink _ s hd1
  match o1 with
  | some r0 =>
    dsimp only at h
    cases h
    refine ⟨?_, rfl, rfl, rfl⟩
    by_cases hc1 : c1 = []
    · exact Or.inr hc1
    · have hC : st.unwrittenContinuationBytes ≠ [] := hne1 hc1
      rcases hinv with hU | hC2
      · exact Or.inl hU
      · exact absurd hC2 hC
  | none =>
    have hc1 : c1 = [] := ho1 rfl
    subst hc1
    dsimp only at h
    rcases hd2 : drainLoop sink st.unwrittenPfx sA with ⟨p1, sB, o2⟩
    rw [hd2] at h
    obtain ⟨ho2, hne2⟩ := drainLoop_shape sink _ sA hd2
    match o2 with
    | some r0 =>
      dsimp only at h
      cases h
      exact ⟨Or.inr rfl, rfl, rfl, rfl⟩
    | none =>
      have hp1 : p1 = [] := ho2 rfl
      subst hp1
      dsimp only at h
      match hnl : findNlBoundary buf with
      | none =>
        rw [hnl] at h
        dsimp only at h
        rcases hw : sink.write sB buf with ⟨res, sC⟩
        rw [hw] at h
        match res with
        | .error e =>
          dsimp only at h
          cases h
          exact ⟨Or.inl rfl, rfl, rfl, rfl⟩
        | .ok written =>
          dsimp only at h
          cases h
          exact ⟨Or.inl rfl, rfl, rfl, rfl⟩
      | some nlb =>
        rw [hnl] at h
        dsimp only at h
        rcases hw : sink.write sB (buf.take nlb) with ⟨res, sC⟩
        rw [hw] at h
        match res with
        | .error e =>
          dsimp only at h
          cases h
          exact ⟨Or.inl rfl, rfl, rfl, rfl⟩
        | .ok written =>
          dsimp only at h
          by_cases hwlen : written = (buf.take nlb).length
          · rw [if_pos hwlen] at h
            cases h
            exact ⟨Or.inr rfl, rfl, rfl, rfl⟩
          · rw [if_neg hwlen] at h
            cases h
            exact ⟨Or.inl rfl, rfl, rfl, rfl⟩

/-- The same facts for write_str including the trimming check. -/
theorem ioWriteStr_inv {σ : Type} {sink : SinkOps σ} {st : IoState} {buf : List Nat}
    {s : σ} {r : Except IOError Nat} {st1 : IoState} {s1 : σ}
    (h : ioWriteStr sink st buf s = (r, st1, s1))
    (hinv : st.unwrittenPfx = [] ∨ st.unwrittenContinuationBytes = []) :
    (st1.unwrittenPfx = [] ∨ st1.unwrittenContinuationBytes = []) ∧
    st1.pfxBytes = st.pfxBytes ∧ st1.trimUserIndents = st.trimUserIndents ∧
    st1.unprocessedUserSuffix = st.unprocessedUserSuffix := by
  unfold ioWriteStr at h
  by_cases ht : st.isTrimmingIndents
  · rw [if_pos ht] at h
    dsimp only at h
    by_cases hl : (trimStartUtf8 buf).length ≠ buf.length
    · rw [if_pos hl] at h
      cases h
      exact ⟨hinv, rfl, rfl, rfl⟩
    · rw [if_neg hl] at h
      have hinv2 : ({ st with isTrimmingIndents := false } : IoState).unwrittenPfx = [] ∨
          ({ st with isTrimmingIndents := false } : IoState).unwrittenContinuationBytes = [] :=
        hinv
      obtain ⟨ha, hb, hc, hd⟩ := ioWriteStrBody_inv h hinv2
      exact ⟨ha, hb, hc, hd⟩
  · rw [if_neg ht] at h
    exact ioWriteStrBody_inv h hinv

/-- Mutual exclusion is preserved by a full write call. -/
theorem ioWrite_inv {σ : Type} {sink : SinkOps σ} {st : IoState} {buf : List Nat}
    {s : σ} {r : Except IOError Nat} {st1 : IoState} {s1 : σ}
    (hinv : st.unwrittenPfx = [] ∨ st.unwrittenContinuationBytes = [])
    (h : ioWrite sink st buf s = some (r, st1, s1)) :
    st1.unwrittenPfx = [] ∨ st1.unwrittenContinuationBytes = [] := by
  unfold ioWrite at h
  split at h
  · cases h
    exact hinv
  · split at h
    · -- empty pending suffix
      split at h
      · -- partialFromUtf8 ok
        split at h
        · cases h
          exact hinv
        · rcases hws : ioWriteStr sink st _ s with ⟨r0, stA, sA⟩
          rw [hws] at h
          cases h
          exact (ioWriteStr_inv hws hinv).1
      · -- partialFromUtf8 error
        cases h
        exact hinv
    · -- nonempty pending suffix
      split at h
      · cases h
      · dsimp only at h
        split at h
        · -- combined buffer confirmed invalid
          cases h
          exact hinv
        · split at h
          · -- still incomplete
            cases h
            exact hinv
          · split at h
            · -- exactly one complete character: goes through write_str
              split at h
              next written stA sA hws =>
                split at h
                · cases h
                  obtain ⟨hx, _, _, _⟩ := ioWriteStr_inv hws hinv
                  exact hx
                · cases h
                  obtain ⟨hx, _, _, _⟩ := ioWriteStr_inv hws hinv
                  exact hx
              next e stA sA hws =>
                cases h
                obtain ⟨hx, _, _, _⟩ := ioWriteStr_inv hws hinv
                exact hx
            · cases h

/-- The flush drain loop: success means fully drained, and leftovers come
from nonempty input. -/
theorem flushDrain_shape {σ : Type} (sink : SinkOps σ) :
    ∀ (fuel : Nat) (p : List Nat) (s : σ) {res : Except IOError Unit} {p1 : List Nat}
      {s1 : σ}, flushDrain sink fuel p s = some (res, p1, s1) →
      (res = .ok () → p1 = []) ∧ (p1 ≠ [] → p ≠ []) := by
  intro fuel
  induction fuel with
  | zero =>
    intro p s res p1 s1 h
    match p with
    | [] =>
      rw [flushDrain] at h
      cases h
      exact ⟨fun _ => rfl, fun hne => absurd rfl hne⟩
    | b :: pending =>
      rw [flushDrain] at h
      cases h
  | succ fuel ih =>
    intro p s res p1 s1 h
    match p with
    | [] =>
      rw [flushDrain] at h
      cases h
      exact ⟨fun _ => rfl, fun hne => absurd rfl hne⟩
    | b :: pending =>
      rw [flushDrain.eq_def] at h
      dsimp only at h
      rcases hw : sink.write s (b :: pending) with ⟨wres, sA⟩
      rw [hw] at h
      match wres with
      | .ok 0 =>
        dsimp only at h
        cases h
        exact ⟨fun hok => (by cases hok), fun _ => (by simp)⟩
      | .ok (n + 1) =>
        dsimp only at h
        obtain ⟨ha, _⟩ := ih _ _ h
        exact ⟨ha, fun _ => (by simp)⟩
      | .error .interrupted =>
        dsimp only at h
        obtain ⟨ha, hb2⟩ := ih _ _ h
        exact ⟨ha, fun _ => (by simp)⟩
      | .error .writeZero =>
        dsimp only at h
        cases h
        exact ⟨fun hok => (by cases hok), fun _ => (by simp)⟩
      | .error (.invalidData v e) =>
        dsimp only at h
        cases h
        exact ⟨fun hok => (by cases hok), fun _ => (by simp)⟩
      | .error (.other t) =>
        dsimp only at h
        cases h
        exact ⟨fun hok => (by cases hok), fun _ => (by simp)⟩

/-- Frame facts for flush: only the pending continuation bytes change; on
success they are fully drained. The unwritten prefix and the user suffix
are never touched. -/
theorem ioFlush_frame {σ : Type} {sink : SinkOps σ} {fuel : Nat} {st : IoState} {s : σ}
    {r : Except IOError Unit} {st1 : IoState} {s1 : σ}
    (h : ioFlush sink fuel st s = some (r, st1, s1)) :
    st1.unwrittenPfx = st.unwrittenPfx ∧
    st1.unprocessedUserSuffix = st.unprocessedUserSuffix ∧
    st1.pfxBytes = st.pfxBytes ∧
    st1.trimUserIndents = st.trimUserIndents ∧
    st1.isTrimmingIndents = st.isTrimmingIndents ∧
    (r = .ok () → st1.unwrittenContinuationBytes = []) ∧
    (st1.unwrittenContinuationBytes ≠ [] → st.unwrittenContinuationBytes ≠ []) := by
  unfold ioFlush at h
  match hfd : flushDrain sink fuel st.unwrittenContinuationBytes s with
  | none => rw [hfd] at h; cases h
  | some (.error e, c1, sA) =>
    rw [hfd] at h
    dsimp only at h
    cases h
    obtain ⟨ha, hb⟩ := flushDrain_shape sink fuel _ s hfd
    exact ⟨rfl, rfl, rfl, rfl, rfl, fun hok => (by cases hok), hb⟩
  | some (.ok u, c1, sA) =>
    rw [hfd] at h
    dsimp only at h
    cases h
    obtain ⟨ha, hb⟩ := flushDrain_shape sink fuel _ s hfd
    exact ⟨rfl, rfl, rfl, rfl, rfl, fun _ => ha rfl, hb⟩

/-- States reachable from construction through any sequence of write and
flush calls against an arbitrary deterministic sink. -/
inductive IoReach {σ : Type} (sink : SinkOps σ) : IoState → σ → Prop where
  | init (pfxScalars : List Nat) (initialIndent trimUserIndents : Bool) (s0 : σ) :
      IoReach sink (mkIoState pfxScalars initialIndent trimUserIndents) s0
  | stepWrite {st : IoState} {s : σ} {buf : List Nat} {r : Except IOError Nat}
      {st1 : IoState} {s1 : σ} : IoReach sink st s →
      ioWrite sink st buf s = some (r, st1, s1) → IoReach sink st1 s1
  | stepFlush {st : IoState} {s : σ} {fuel : Nat} {r : Except IOError Unit}
      {st1 : IoState} {s1 : σ} : IoReach sink st s →
      ioFlush sink fuel st s = some (r, st1, s1) → IoReach sink st1 s1

/-- C9: Mutual-exclusion pending-buffer invariant. In every state reachable
from construction by any sequence of write and flush calls, against any
sink, the pending prefix bytes (unwritten_prefix) and the pending
continuation bytes (unwritten_continuation_bytes) are never both nonempty. -/
theorem pending_buffers_mutually_exclusive {σ : Type} (sink : SinkOps σ)
    (st : IoState) (s : σ) (h : IoReach sink st s) :
    st.unwrittenPfx = [] ∨ st.unwrittenContinuationBytes = [] := by
  induction h with
  | init p i t s0 => exact Or.inr rfl
  | stepWrite hr hw ih => exact ioWrite_inv ih hw
  | @stepFlush st0 s0 fuel r st1 s1 hr hf ih =>
    obtain ⟨hU, _, _, _, _, _, hC⟩ := ioFlush_frame hf
    by_cases hc1 : st1.unwrittenContinuationBytes = []
    · exact Or.inr hc1
    · rcases ih with hu | hcp
      · exact Or.inl (hU.trans hu)
      · exact absurd hcp (hC hc1)

/-- Witness: the invariant at the freshly constructed adapter with prefix
given by the tab character. -/
theorem pending_buffers_mutually_exclusive_witness :
    (mkIoState [9] true false).unwrittenPfx = [] ∨
      (mkIoState [9] true false).unwrittenContinuationBytes = [] :=
  pending_buffers_mutually_exclusive vecSink _ [] (IoReach.init [9] true false [])

/-- A sink that always accepts zero bytes. -/
def zeroSink : SinkOps Unit where
  write := fun s _ => (.ok 0, s)
  flush := fun s => (.ok (), s)

/-- C1: code evaluation at the failing input. Writing the two bytes D1 8F
(the valid two-byte character U+044F) in one call succeeds and the sink
receives both bytes; feeding the same bytes split as [D1] then [8F], the
first call buffers D1 as an unprocessed user suffix and reports it
accepted, and the second call panics (hits the unreachable! arm of the
match on b & 0xF0, which has no arm for the nibble D0), modelled as none.
Chunk-invariance therefore fails on the code: a one-byte-at-a-time
partition of valid text does not reproduce the single-call behaviour. -/
theorem chunk_invariance_panic_eval :
    ioWrite vecSink (mkIoState [] false false) [0xD1, 0x8F] [] =
      some (.ok 2, mkIoState [] false false, [0xD1, 0x8F]) ∧
    ioWrite vecSink (mkIoState [] false false) [0xD1] [] =
      some (.ok 1, { mkIoState [] false false with unprocessedUserSuffix := [0xD1] }, []) ∧
    ioWrite vecSink { mkIoState [] false false with unprocessedUserSuffix := [0xD1] }
      [0x8F] [] = none := by
  have hlt : utf8LeaderTargetLength 0xD1 = none := by decide
  refine ⟨?_, ?_, ?_⟩
  · simp [ioWrite, ioWriteStr, ioWriteStrBody, drainLoop, mkIoState, partialFromUtf8,
      utf8Validate, shiftRes, utf8Cont, findNlBoundary, vecSink, utf8EncodeScalars]
  · simp [ioWrite, mkIoState, partialFromUtf8, utf8Validate, utf8Cont, utf8EncodeScalars]
  · simp [ioWrite, mkIoState, hlt, utf8EncodeScalars]

/-- C3 counterexample: on a freshly constructed adapter with prefix tab and
initial indent enabled, unwritten_prefix is the tab byte, yet flush
delivers nothing to the sink and leaves unwritten_prefix untouched; the
claim that flush fully drains PendingPrefixBytes (unwritten_prefix) to the
sink is false at this input. -/
theorem flush_prefix_counterexample :
    ioFlush vecSink 1 (mkIoState [9] true false) [] =
      some (.ok (), mkIoState [9] true false, []) ∧
    (mkIoState [9] true false).unwrittenPfx = [9] ∧
    ([9] : List Nat) ≠ [] := by
  refine ⟨?_, ?_, ?_⟩
  · simp [ioFlush, flushDrain, vecSink, mkIoState, utf8EncodeScalars, utf8EncodeScalar]
  · simp [mkIoState, utf8EncodeScalars, utf8EncodeScalar]
  · simp

/-- C3 amended: flush drains only PendingContinuationBytes
(unwritten_continuation_bytes) to the sink, retrying on Interrupted, then
flushes the sink; it never touches PendingPrefixBytes (unwritten_prefix)
nor PendingUserSuffix (unprocessed_user_suffix), and on success the
continuation bytes are fully drained. -/
theorem flush_drains_continuation_only {σ : Type} (sink : SinkOps σ) (fuel : Nat)
    (st : IoState) (s : σ) (r : Except IOError Unit) (st1 : IoState) (s1 : σ)
    (h : ioFlush sink fuel st s = some (r, st1, s1)) :
    st1.unwrittenPfx = st.unwrittenPfx ∧
    st1.unprocessedUserSuffix = st.unprocessedUserSuffix ∧
    (r = .ok () → st1.unwrittenContinuationBytes = []) := by
  obtain ⟨ha, hb, _, _, _, hf, _⟩ := ioFlush_frame h
  exact ⟨ha, hb, hf⟩

/-- Witness: the amended flush behaviour at a concrete state. -/
theorem flush_drains_continuation_only_witness :
    (mkIoState [] false false).unwrittenPfx = (mkIoState [] false false).unwrittenPfx ∧
    (mkIoState [] false false).unprocessedUserSuffix =
      (mkIoState [] false false).unprocessedUserSuffix ∧
    ((Except.ok () : Except IOError Unit) = .ok () →
      (mkIoState [] false false).unwrittenContinuationBytes = []) :=
  flush_drains_continuation_only vecSink 1 (mkIoState [] false false) []
    (.ok ()) (mkIoState [] false false) []
    (by simp [ioFlush, flushDrain, vecSink, mkIoState, utf8EncodeScalars])

/-- C8 counterexample: with a sink that accepts one byte then zero bytes,
writing the two-byte character C3 A9 queues the continuation byte A9; the
next write call offers A9, the sink accepts 0 bytes, and the adapter
returns success with count 0 to its caller instead of surfacing a
WriteZero error. -/
theorem write_zero_not_error_counterexample :
    ioWrite oneThenZeroSink (mkIoState [] false false) [0xC3, 0xA9] (0, []) =
      some (.ok 2,
        { mkIoState [] false false with unwrittenContinuationBytes := [0xA9] },
        (1, [0xC3])) ∧
    ioWrite oneThenZeroSink
      { mkIoState [] false false with unwrittenContinuationBytes := [0xA9] }
      [0x61] (1, [0xC3]) =
      some (.ok 0,
        { mkIoState [] false false with unwrittenContinuationBytes := [0xA9] },
        (2, [0xC3])) ∧
    ([0xA9] : List Nat) ≠ [] ∧
    (Except.ok 0 : Except IOError Nat).isOk = true ∧
    (Except.ok 0 : Except IOError Nat) ≠ .error .writeZero := by
  refine ⟨?_, ?_, by simp, rfl, by simp⟩
  · simp [ioWrite, ioWriteStr, ioWriteStrBody, drainLoop, mkIoState, partialFromUtf8,
      utf8Validate, shiftRes, utf8Cont, findNlBoundary, oneThenZeroSink, utf8EncodeScalars]
  · simp [ioWrite, ioWriteStr, ioWriteStrBody, drainLoop, mkIoState, partialFromUtf8,
      utf8Validate, shiftRes, utf8Cont, findNlBoundary, oneThenZeroSink, utf8EncodeScalars]

/-- C8 amended: when the sink accepts 0 bytes without error while queued
continuation bytes remain, the flush path surfaces WriteZero, but the
write path propagates the sink's 0 count as a non-error Ok(0) result. -/
theorem write_zero_flush_vs_write {σ : Type} (sink : SinkOps σ) (st : IoState) (s : σ)
    (b : Nat) (p : List Nat) (s1 : σ) (buf : List Nat) (fuel : Nat)
    (hC : st.unwrittenContinuationBytes = b :: p)
    (hw : sink.write s (b :: p) = (.ok 0, s1)) :
    ioFlush sink (fuel + 1) st s = some (.error .writeZero, st, s1) ∧
    (st.isTrimmingIndents = false →
      ioWriteStr sink st buf s = (.ok 0, st, s1)) := by
  constructor
  · unfold ioFlush
    rw [hC]
    rw [flushDrain.eq_def]
    dsimp only
    rw [hw]
    dsimp only
    have hst : { st with unwrittenContinuationBytes := b :: p } = st := by
      rw [← hC]
    rw [hst]
  · intro htrim
    unfold ioWriteStr
    rw [htrim]
    rw [if_neg (by simp)]
    unfold ioWriteStrBody
    rw [hC]
    rw [drainLoop.eq_def]
    dsimp only
    rw [hw]
    dsimp only
    rw [if_pos rfl]
    dsimp only
    have hst : { st with unwrittenContinuationBytes := b :: p } = st := by
      rw [← hC]
    rw [hst]

/-- Witness: the amended WriteZero behaviour at a concrete state against
the always-zero sink. -/
theorem write_zero_flush_vs_write_witness :
    ioFlush zeroSink 1
      { mkIoState [] false false with unwrittenContinuationBytes := [0xA9] } () =
      some (.error .writeZero,
        { mkIoState [] false false with unwrittenContinuationBytes := [0xA9] }, ()) ∧
    (({ mkIoState [] false false with
        unwrittenContinuationBytes := [0xA9] } : IoState).isTrimmingIndents = false →
      ioWriteStr zeroSink
        { mkIoState [] false false with unwrittenContinuationBytes := [0xA9] } [0x61] () =
        (.ok 0,
          { mkIoState [] false false with unwrittenContinuationBytes := [0xA9] }, ())) :=
  write_zero_flush_vs_write zeroSink
    { mkIoState [] false false with unwrittenContinuationBytes := [0xA9] } ()
    0xA9 [] () [0x61] 0 rfl rfl

/-- C6 counterexample: with no pending state, writing 61 F0 (valid text
followed by a trailing incomplete byte) hands only 61 to the sink, reports
1 byte consumed, and leaves the unprocessed user suffix empty: the trailing
incomplete byte F0 is neither buffered nor reported as consumed, contrary
to the claim (which predicts count 2 and suffix F0). -/
theorem write_trailing_bytes_counterexample :
    ioWrite vecSink (mkIoState [] false false) [0x61, 0xF0] [] =
      some (.ok 1, mkIoState [] false false, [0x61]) ∧
    partialFromUtf8 [0x61, 0xF0] = .ok ([0x61], [0xF0]) ∧
    (mkIoState [] false false).unprocessedUserSuffix ≠ [0xF0] ∧
    (1 : Nat) ≠ 2 := by
  refine ⟨?_, rfl, ?_, by simp⟩
  · simp [ioWrite, ioWriteStr, ioWriteStrBody, drainLoop, mkIoState, partialFromUtf8,
      utf8Validate, shiftRes, utf8Cont, findNlBoundary, vecSink, utf8EncodeScalars]
  · simp [mkIoState, utf8EncodeScalars]

/-- C6 amended: with all pending buffers empty, a chunk is buffered into
PendingUserSuffix (and reported consumed) only when its valid leading text
is empty; when the valid leading text is nonempty, it is handed to the
Line Indenter and that result is returned directly, with the trailing
incomplete bytes left unconsumed and unbuffered. -/
theorem write_no_pending_amended {σ : Type} (sink : SinkOps σ) (st : IoState) (s : σ)
    (buf v t : List Nat)
    (hsuf : st.unprocessedUserSuffix = [])
    (hne : buf ≠ [])
    (hp : partialFromUtf8 buf = .ok (v, t)) :
    (v = [] → ioWrite sink st buf s =
      some (.ok t.length, { st with unprocessedUserSuffix := t }, s)) ∧
    (v ≠ [] → ioWrite sink st buf s = some (ioWriteStr sink st v s)) := by
  constructor
  · intro hv
    unfold ioWrite
    rw [if_neg hne, hsuf]
    dsimp only
    rw [hp]
    dsimp only
    rw [if_pos hv]
    simp only [List.nil_append]
  · intro hv
    unfold ioWrite
    rw [if_neg hne, hsuf]
    dsimp only
    rw [hp]
    dsimp only
    rw [if_neg hv]

/-- Witness: the amended no-pending-state behaviour at the concrete chunk
61 F0. -/
theorem write_no_pending_amended_witness :
    ioWrite vecSink (mkIoState [] false false) [0x61, 0xF0] [] =
      some (ioWriteStr vecSink (mkIoState [] false false) [0x61] []) :=
  (write_no_pending_amended vecSink (mkIoState [] false false) [] [0x61, 0xF0]
    [0x61] [0xF0] rfl (by simp) rfl).2 (by simp)

/-- C7 counterexample: buffering F0 9F (two bytes of a four-byte character,
reported consumed), then writing the invalid continuation 41, returns an
EncodingError whose offset is 0, exactly the raw valid_up_to of the
combined internal buffer F0 9F 41; it is not adjusted by the 2 bytes
buffered before the call (neither 0 + 2 nor 0 - 2 equals the returned 0),
so the offset does not refer to a position within the caller's chunk. -/
theorem encoding_offset_unadjusted_counterexample :
    ioWrite vecSink (mkIoState [] false false) [0xF0, 0x9F] [] =
      some (.ok 2,
        { mkIoState [] false false with unprocessedUserSuffix := [0xF0, 0x9F] }, []) ∧
    ioWrite vecSink
      { mkIoState [] false false with unprocessedUserSuffix := [0xF0, 0x9F] }
      [0x41] [] =
      some (.error (.invalidData 0 (some 2)),
        { mkIoState [] false false with unprocessedUserSuffix := [0xF0, 0x9F] }, []) ∧
    utf8Validate [0xF0, 0x9F, 0x41] = .err 0 (some 2) ∧
    ((0 : Int) + 2 ≠ 0) ∧ ((0 : Int) - 2 ≠ 0) := by
  have htl : utf8LeaderTargetLength 0xF0 = some 4 := by decide
  refine ⟨?_, ?_, rfl, by simp, by simp⟩
  · simp [ioWrite, mkIoState, partialFromUtf8, utf8Validate, shiftRes, utf8Cont,
      utf8Second4, utf8EncodeScalars]
  · simp [ioWrite, mkIoState, htl, partialFromUtf8, utf8Validate, shiftRes, utf8Cont,
      utf8Second4, utf8EncodeScalars]

/-- C7 amended: for every nonempty PendingUserSuffix and every chunk whose
appended bytes make the combined buffer confirmed-invalid, write rolls
PendingUserSuffix back to its exact pre-call contents (the whole state and
sink are unchanged), reports no bytes consumed (it returns an error), and
the EncodingError carries the raw valid_up_to of the combined
(buffered ++ appended) internal buffer, with no adjustment. -/
theorem write_pending_invalid_amended {σ : Type} (sink : SinkOps σ) (st : IoState)
    (s : σ) (buf : List Nat) (b : Nat) (rest : List Nat) (target : Nat) (e : Utf8Err)
    (hsuf : st.unprocessedUserSuffix = b :: rest)
    (htl : utf8LeaderTargetLength b = some target)
    (hne : buf ≠ [])
    (hp : partialFromUtf8
      (st.unprocessedUserSuffix ++
        buf.take (target - st.unprocessedUserSuffix.length)) = .error e) :
    ioWrite sink st buf s = some (.error (.invalidData e.validUpTo e.errorLen), st, s) := by
  unfold ioWrite
  rw [if_neg hne]
  rw [hsuf] at hp ⊢
  dsimp only
  rw [htl]
  dsimp only
  rw [hp]
  dsimp only
  have hto : ((b :: rest) ++ buf.take (target - (b :: rest).length)).take (b :: rest).length =
      b :: rest := List.take_left _ _
  rw [hto, ← hsuf]

/-- Witness: the amended pending-invalid behaviour at the concrete state
holding F0 9F with incoming chunk 41. -/
theorem write_pending_invalid_amended_witness :
    ioWrite vecSink
      { mkIoState [] false false with unprocessedUserSuffix := [0xF0, 0x9F] }
      [0x41] [] =
      some (.error (.invalidData 0 (some 2)),
        { mkIoState [] false false with unprocessedUserSuffix := [0xF0, 0x9F] }, []) :=
  write_pending_invalid_amended vecSink
    { mkIoState [] false false with unprocessedUserSuffix := [0xF0, 0x9F] }
    [] [0x41] 0xF0 [0x9F] 4 ⟨0, some 2⟩ rfl (by decide) (by simp) rfl

theorem utf8EncodeScalars_valid {l : List Nat} (h : ∀ v ∈ l, isScalar v) :
    Utf8Valid (utf8EncodeScalars l) := by
  induction l with
  | nil => exact .nil
  | cons v rest ih =>
    have : utf8EncodeScalars (v :: rest) = utf8EncodeScalar v ++ utf8EncodeScalars rest := by
      simp [utf8EncodeScalars]
    rw [this]
    exact .cons v _ (h v (by simp)) (ih (fun w hw => h w (by simp [hw])))

/-- Whatever partial_from_utf8 returns as the leading part is valid text. -/
theorem partialFromUtf8_ok_valid {buf v t : List Nat}
    (h : partialFromUtf8 buf = .ok (v, t)) : Utf8Valid v := by
  rw [partialFromUtf8] at h
  match hval : utf8Validate buf with
  | .ok =>
    rw [hval] at h
    obtain ⟨hv, _⟩ : buf = v ∧ ([] : List Nat) = t := by cases h; exact ⟨rfl, rfl⟩
    subst hv
    exact utf8Validate_ok_valid hval
  | .err v0 (some l) => rw [hval] at h; cases h
  | .err v0 none =>
    rw [hval] at h
    obtain ⟨hv, _⟩ : buf.take v0 = v ∧ buf.drop v0 = t := by cases h; exact ⟨rfl, rfl⟩
    subst hv
    exact (utf8Validate_err_decomp hval).2.1

theorem utf8EncodeScalar_no_newline {v : Nat} (hv : v ≠ 10) :
    ∀ b ∈ utf8EncodeScalar v, b ≠ 10 := by
  intro b hb
  unfold utf8EncodeScalar at hb
  by_cases h1 : v < 0x80
  · rw [if_pos h1] at hb
    simp at hb
    omega
  · rw [if_neg h1] at hb
    by_cases h2 : v < 0x800
    · rw [if_pos h2] at hb
      simp at hb
      rcases hb with hb | hb <;> omega
    · rw [if_neg h2] at hb
      by_cases h3 : v < 0x10000
      · rw [if_pos h3] at hb
        simp at hb
        rcases hb with hb | hb | hb <;> omega
      · rw [if_neg h3] at hb
        simp at hb
        rcases hb with hb | hb | hb | hb <;> omega

theorem findNlBoundary_append_none {xs : List Nat} (hxs : ∀ b ∈ xs, b ≠ 10)
    (ys : List Nat) :
    findNlBoundary (xs ++ ys) = (findNlBoundary ys).map (· + xs.length) := by
  induction xs with
  | nil =>
    simp only [List.nil_append, List.length_nil]
    cases findNlBoundary ys <;> simp
  | cons b rest ih =>
    have hb : b ≠ 10 := hxs b (by simp)
    rw [List.cons_append, findNlBoundary, if_neg hb,
      ih (fun c hc => hxs c (by simp [hc]))]
    cases findNlBoundary ys <;> simp <;> omega

/-- Splitting valid text just after a newline byte found by the scanner
yields two valid texts. -/
theorem findNl_valid_split {bs : List Nat} (h : Utf8Valid bs) :
    ∀ {k : Nat}, findNlBoundary bs = some k →
      Utf8Valid (bs.take k) ∧ Utf8Valid (bs.drop k) := by
  induction h with
  | nil => intro k hk; cases hk
  | cons v rest hv hr ih =>
    intro k hk
    by_cases hv10 : v = 10
    · subst hv10
      rw [show utf8EncodeScalar 10 = [10] from rfl] at hk ⊢
      rw [List.cons_append, findNlBoundary, if_pos rfl] at hk
      cases hk
      constructor
      · have : Utf8Valid (utf8EncodeScalar 10 ++ []) := .cons 10 [] (by decide) .nil
        simpa using this
      · simpa using hr
    · rw [findNlBoundary_append_none (utf8EncodeScalar_no_newline hv10) rest] at hk
      match hrest : findNlBoundary rest with
      | none => rw [hrest] at hk; cases hk
      | some k0 =>
        rw [hrest] at hk
        dsimp only [Option.map] at hk
        obtain hkk : k0 + (utf8EncodeScalar v).length = k := by cases hk; rfl
        subst hkk
        obtain ⟨hta, htd⟩ := ih hrest
        constructor
        · rw [Nat.add_comm, List.take_append]
          exact .cons v _ hv hta
        · rw [Nat.add_comm, List.drop_append]
          exact htd

/-- The drain loop against the full-acceptance tracing sink: everything is
drained in one call (when nonempty), which is logged. -/
theorem drainLoop_fullTrace (p : List Nat) (s : List Nat × List (List Nat)) :
    drainLoop fullTraceSink p s =
      ([], (s.1 ++ p, s.2 ++ if p = [] then [] else [p]), none) := by
  match p with
  | [] => rw [drainLoop_nil]; simp
  | b :: t =>
    rw [drainLoop.eq_def]
    dsimp only [fullTraceSink]
    rw [if_neg (by simp)]
    rw [show ((b :: t).drop (b :: t).length) = [] from List.drop_length _]
    rw [drainLoop_nil]
    simp

/-- Invariant for runs against the full-acceptance tracing sink: every
logged buffer is valid text, no continuation bytes are pending, and the
(possibly pending) prefix is valid text. -/
def TraceInv (st : IoState) (s : List Nat × List (List Nat)) : Prop :=
  (∀ x ∈ s.2, Utf8Valid x) ∧ st.unwrittenContinuationBytes = [] ∧
    Utf8Valid st.unwrittenPfx ∧ Utf8Valid st.pfxBytes

theorem ioWriteStrBody_fullTrace {st : IoState} {buf : List Nat}
    {s : List Nat × List (List Nat)} {r : Except IOError Nat} {st1 : IoState}
    {s1 : List Nat × List (List Nat)}
    (h : ioWriteStrBody fullTraceSink st buf s = (r, st1, s1))
    (hbuf : Utf8Valid buf) (hinv : TraceInv st s) : TraceInv st1 s1 := by
  obtain ⟨htr, hC, hU, hP⟩ := hinv
  unfold ioWriteStrBody at h
  rw [hC, drainLoop_nil] at h
  dsimp only at h
  rw [drainLoop_fullTrace] at h
  dsimp only at h
  match hnl : findNlBoundary buf with
  | none =>
    rw [hnl] at h
    dsimp only [fullTraceSink] at h
    rw [List.drop_length, List.takeWhile_nil] at h
    cases h
    refine ⟨?_, by simp, .nil, hP⟩
    intro x hx
    simp only [List.append_assoc, List.mem_append] at hx
    rcases hx with hx | hx
    · exact htr x hx
    · by_cases hUe : st.unwrittenPfx = []
      · rw [if_pos hUe] at hx
        simp at hx
        subst hx
        exact hbuf
      · rw [if_neg hUe] at hx
        simp at hx
        rcases hx with hx | hx
        · rw [hx]; exact hU
        · rw [hx]; exact hbuf
  | some nlb =>
    rw [hnl] at h
    dsimp only [fullTraceSink] at h
    rw [if_pos rfl] at h
    cases h
    obtain ⟨htake, _⟩ := findNl_valid_split hbuf hnl
    refine ⟨?_, by simpa using hC, hP, hP⟩
    intro x hx
    simp only [List.append_assoc, List.mem_append] at hx
    rcases hx with hx | hx
    · exact htr x hx
    · by_cases hUe : st.unwrittenPfx = []
      · rw [if_pos hUe] at hx
        simp at hx
        subst hx
        exact htake
      · rw [if_neg hUe] at hx
        simp at hx
        rcases hx with hx | hx
        · rw [hx]; exact hU
        · rw [hx]; exact htake

theorem ioWriteStr_fullTrace {st : IoState} {buf : List Nat}
    {s : List Nat × List (List Nat)} {r : Except IOError Nat} {st1 : IoState}
    {s1 : List Nat × List (List Nat)}
    (h : ioWriteStr fullTraceSink st buf s = (r, st1, s1))
    (hbuf : Utf8Valid buf) (hinv : TraceInv st s) : TraceInv st1 s1 := by
  unfold ioWriteStr at h
  by_cases ht : st.isTrimmingIndents
  · rw [if_pos ht] at h
    dsimp only at h
    by_cases hl : (trimStartUtf8 buf).length ≠ buf.length
    · rw [if_pos hl] at h
      cases h
      exact hinv
    · rw [if_neg hl] at h
      exact ioWriteStrBody_fullTrace h hbuf hinv
  · rw [if_neg ht] at h
    exact ioWriteStrBody_fullTrace h hbuf hinv

theorem ioWrite_fullTrace {st : IoState} {buf : List Nat}
    {s : List Nat × List (List Nat)} {r : Except IOError Nat} {st1 : IoState}
    {s1 : List Nat × List (List Nat)}
    (h : ioWrite fullTraceSink st buf s = some (r, st1, s1))
    (hinv : TraceInv st s) : TraceInv st1 s1 := by
  unfold ioWrite at h
  split at h
  · cases h
    exact hinv
  · split at h
    · split at h
      next validPart suffix hp =>
        split at h
        · cases h
          obtain ⟨a, b2, c, d⟩ := hinv
          exact ⟨a, b2, c, d⟩
        · rcases hws : ioWriteStr fullTraceSink st validPart s with ⟨r0, stA, sA⟩
          rw [hws] at h
          cases h
          exact ioWriteStr_fullTrace hws (partialFromUtf8_ok_valid hp) hinv
      · cases h
        exact hinv
    · split at h
      · cases h
      · dsimp only at h
        split at h
        next e hp =>
          cases h
          obtain ⟨a, b2, c, d⟩ := hinv
          exact ⟨a, b2, c, d⟩
        next data more hp =>
          split at h
          · cases h
            obtain ⟨a, b2, c, d⟩ := hinv
            exact ⟨a, b2, c, d⟩
          · split at h
            · split at h
              next written stA sA hws =>
                have hout := ioWriteStr_fullTrace hws (partialFromUtf8_ok_valid hp) hinv
                split at h
                · cases h
                  obtain ⟨a, b2, c, d⟩ := hout
                  exact ⟨a, b2, c, d⟩
                · cases h
                  obtain ⟨a, b2, c, d⟩ := hout
                  exact ⟨a, b2, c, d⟩
              next e2 stA sA hws =>
                have hout := ioWriteStr_fullTrace hws (partialFromUtf8_ok_valid hp) hinv
                cases h
                obtain ⟨a, b2, c, d⟩ := hout
                exact ⟨a, b2, c, d⟩
            · cases h

theorem ioRunChunks_fullTrace (chunks : List (List Nat)) (st : IoState)
    (s : List Nat × List (List Nat)) (hinv : TraceInv st s) :
    TraceInv (ioRunChunks fullTraceSink chunks st s).1
      (ioRunChunks fullTraceSink chunks st s).2 := by
  induction chunks generalizing st s with
  | nil => exact hinv
  | cons c cs ih =>
    rw [ioRunChunks]
    match hw : ioWrite fullTraceSink st c s with
    | some (r, st1, s1) =>
      dsimp only
      exact ih st1 s1 (ioWrite_fullTrace hw hinv)
    | none =>
      dsimp only
      exact hinv

/-- C2 amended: against a sink that fully accepts every buffer, for every
sequence of caller writes (arbitrary byte chunks, arbitrarily fragmenting
characters) and every configuration whose prefix is a string, every buffer
the byte adapter hands to the sink's write method is itself valid,
complete text. (As stated, over sinks that themselves fragment the data,
the claim is false: see the counterexample, where the adapter re-offers the
bare continuation bytes of a partially accepted character.) -/
theorem no_split_characters_full_sink (pfxScalars : List Nat) (initI trim : Bool)
    (chunks : List (List Nat)) (hpfx : ∀ v ∈ pfxScalars, isScalar v) :
    ∀ x ∈ (ioRunChunks fullTraceSink chunks
      (mkIoState pfxScalars initI trim) ([], [])).2.2, Utf8Valid x := by
  have hinv : TraceInv (mkIoState pfxScalars initI trim) ([], []) := by
    refine ⟨by simp, rfl, ?_, utf8EncodeScalars_valid hpfx⟩
    unfold mkIoState
    dsimp only
    by_cases hi : initI
    · rw [if_pos hi]
      exact utf8EncodeScalars_valid hpfx
    · rw [if_neg hi]
      exact .nil
  exact (ioRunChunks_fullTrace chunks _ _ hinv).1

/-- Witness: the amended no-split-characters property at the concrete run
with prefix tab, initial indent, and the single chunk 61. -/
theorem no_split_characters_full_sink_witness : Utf8Valid [9] := by
  have h := no_split_characters_full_sink [9] true false [[0x61]]
    (fun v hv => by simp at hv; rw [hv]; exact Or.inl (by omega))
  apply h
  simp [ioRunChunks, ioWrite, ioWriteStr, ioWriteStrBody, drainLoop, mkIoState,
    partialFromUtf8, utf8Validate, shiftRes, utf8Cont, findNlBoundary, fullTraceSink,
    utf8EncodeScalars, utf8EncodeScalar]

/-- C2 counterexample: with the one-byte-at-a-time tracing sink, writing
the four bytes of one character and then flushing hands the sink the
buffer 9F 98 80 (bare continuation bytes of the partially accepted
character), which is not valid text: a sink that asserts every buffer it
receives is valid, complete text observes a violation when the sink itself
fragments the data. -/
theorem split_character_buffer_counterexample :
    ioWrite oneByteTraceSink (mkIoState [] false false) [0xF0, 0x9F, 0x98, 0x80]
      ([], []) =
      some (.ok 4,
        { mkIoState [] false false with
          unwrittenContinuationBytes := [0x9F, 0x98, 0x80] },
        ([0xF0], [[0xF0, 0x9F, 0x98, 0x80]])) ∧
    ioFlush oneByteTraceSink 3
      { mkIoState [] false false with unwrittenContinuationBytes := [0x9F, 0x98, 0x80] }
      ([0xF0], [[0xF0, 0x9F, 0x98, 0x80]]) =
      some (.ok (), mkIoState [] false false,
        ([0xF0, 0x9F, 0x98, 0x80],
          [[0xF0, 0x9F, 0x98, 0x80], [0x9F, 0x98, 0x80], [0x98, 0x80], [0x80]])) ∧
    [0x9F, 0x98, 0x80] ∈
      [[0xF0, 0x9F, 0x98, 0x80], [0x9F, 0x98, 0x80], [0x98, 0x80], [0x80]] ∧
    ¬ Utf8Valid [0x9F, 0x98, 0x80] := by
  refine ⟨?_, ?_, by simp, ?_⟩
  · simp [ioWrite, ioWriteStr, ioWriteStrBody, drainLoop, mkIoState, partialFromUtf8,
      utf8Validate, shiftRes, utf8Cont, utf8Second4, findNlBoundary, oneByteTraceSink,
      utf8EncodeScalars]
  · simp [ioFlush, flushDrain, mkIoState, oneByteTraceSink, utf8EncodeScalars]
  · intro hv
    have h2 := hv.validate_ok
    exact absurd h2 (by decide)

/-! Model of src/fmt.rs: strings are lists of Unicode scalar values. -/

/-- A fmt::Write sink: write_str either succeeds or fails (fmt::Error). -/
structure FmtSinkOps (σ : Type) where
  writeStr : σ → List Nat → (Except Unit Unit) × σ

/-- State of fmt::IndentedWrite (fmt.rs lines 40..52), sink threaded
separately. -/
structure FmtState where
  pfxScalars : List Nat
  insertIndent : Bool
  trimUserIndents : Bool
  isTrimmingIndents : Bool
deriving DecidableEq, Repr

/-- fmt indent_with_rules (fmt.rs lines 22..37). -/
def mkFmtState (pfxScalars : List Nat) (initialIndent trimUserIndents : Bool) : FmtState :=
  { pfxScalars := pfxScalars
    insertIndent := initialIndent
    trimUserIndents := trimUserIndents
    isTrimmingIndents := trimUserIndents && initialIndent }

/-- str::trim_start over scalar values. -/
def trimStartScalars (l : List Nat) : List Nat := l.dropWhile rustIsWhitespace

/-- buf.find of the newline character over scalars, mapped to idx + 1. -/
def findNlScalars : List Nat → Option Nat
  | [] => none
  | c :: rest => if c = 10 then some 1 else (findNlScalars rest).map (· + 1)

theorem dropWhile_len_le (p : Nat → Bool) (l : List Nat) :
    (l.dropWhile p).length ≤ l.length := by
  induction l with
  | nil => simp
  | cons a t ih =>
    rw [List.dropWhile]
    by_cases h : p a
    · rw [h]
      simp only [List.length_cons]
      omega
    · simp only [Bool.not_eq_true] at h
      rw [h]

theorem findNlScalars_pos {l : List Nat} {k : Nat} (h : findNlScalars l = some k) :
    1 ≤ k ∧ k ≤ l.length := by
  induction l generalizing k with
  | nil => cases h
  | cons c rest ih =>
    rw [findNlScalars] at h
    by_cases hc : c = 10
    · rw [if_pos hc] at h
      cases h
      simp
    · rw [if_neg hc] at h
      match hr : findNlScalars rest with
      | none => rw [hr] at h; cases h
      | some k0 =>
        rw [hr] at h
        dsimp only [Option.map] at h
        obtain hk : k0 + 1 = k := by cases h; rfl
        obtain ⟨h1, h2⟩ := ih hr
        simp only [List.length_cons]
        omega

/-- The while loop of fmt write_str (fmt.rs lines 73..96): insert the
prefix when owed, then write up to and including the next newline (owing a
prefix afterwards and optionally trimming the next line's start) or the
whole remaining buffer. -/
def fmtLoop {σ : Type} (sink : FmtSinkOps σ) (st : FmtState) (buf : List Nat) (s : σ) :
    (Except Unit Unit) × FmtState × σ :=
  match buf with
  | [] => (.ok (), st, s)
  | b :: rest =>
    let pfxStep : (Except Unit Unit) × FmtState × σ :=
      if st.insertIndent then
        match sink.writeStr s st.pfxScalars with
        | (.error e, s1) => (.error e, st, s1)
        | (.ok _, s1) => (.ok (), { st with insertIndent := false }, s1)
      else (.ok (), st, s)
    match pfxStep with
    | (.error e, st1, s1) => (.error e, st1, s1)
    | (.ok _, st1, s1) =>
      match hnl : findNlScalars (b :: rest) with
      | none =>
        match sink.writeStr s1 (b :: rest) with
        | (.error e, s2) => (.error e, st1, s2)
        | (.ok _, s2) => (.ok (), st1, s2)
      | some nlb =>
        match sink.writeStr s1 ((b :: rest).take nlb) with
        | (.error e, s2) => (.error e, st1, s2)
        | (.ok _, s2) =>
          let st2 := { st1 with insertIndent := true }
          let rest2 := (b :: rest).drop nlb
          if st2.trimUserIndents then
            let rest3 := trimStartScalars rest2
            if rest3 = [] then
              fmtLoop sink { st2 with isTrimmingIndents := true } rest3 s2
            else fmtLoop sink st2 rest3 s2
          else fmtLoop sink st2 rest2 s2
termination_by buf.length
decreasing_by
  all_goals obtain ⟨h1, h2⟩ := findNlScalars_pos hnl
  all_goals simp only [List.length_cons] at h2
  · exact lt_of_le_of_lt (dropWhile_len_le _ _)
      (by simp only [List.length_drop, List.length_cons]; omega)
  · exact lt_of_le_of_lt (dropWhile_len_le _ _)
      (by simp only [List.length_drop, List.length_cons]; omega)
  · simp only [List.length_drop, List.length_cons]
    omega

/-- fmt IndentedWrite::write_str (fmt.rs lines 61..99), including the
trimming check at the top. -/
def fmtWriteStr {σ : Type} (sink : FmtSinkOps σ) (st : FmtState) (buf0 : List Nat)
    (s : σ) : (Except Unit Unit) × FmtState × σ :=
  if st.isTrimmingIndents then
    let buf := trimStartScalars buf0
    if buf = [] then (.ok (), st, s)
    else fmtLoop sink { st with isTrimmingIndents := false } buf s
  else fmtLoop sink st buf0 s

/-- A String sink: accumulates every written scalar, never fails. -/
def fmtAccSink : FmtSinkOps (List Nat) where
  writeStr := fun s buf => (.ok (), s ++ buf)

/-- Driver: a sequence of write_str calls. -/
def fmtRunStrs {σ : Type} (sink : FmtSinkOps σ) :
    List (List Nat) → FmtState → σ → FmtState × σ
  | [], st, s => (st, s)
  | w :: ws, st, s =>
    match fmtWriteStr sink st w s with
    | (_, st1, s1) => fmtRunStrs sink ws st1 s1

/-- Spec-side Line Indenter output (modelled from the spec's prefix
placement wording, for comparison with the adapters): the configured
prefix appears exactly once immediately before the text of each line — at
the very start iff a prefix is owed initially, and after every line
terminator that is followed by further text; an empty line (a bare
terminator) still receives its prefix; nothing is emitted after a trailing
terminator. -/
def emitScalars (pfx : List Nat) : Bool → List Nat → List Nat
  | _, [] => []
  | owed, c :: cs => (if owed then pfx else []) ++ c :: emitScalars pfx (c == 10) cs

/-- Whether a prefix is owed after consuming the given text. -/
def owedAfter : Bool → List Nat → Bool
  | owed, [] => owed
  | _, c :: cs => owedAfter (c == 10) cs

theorem owedAfter_append (owed : Bool) (xs ys : List Nat) :
    owedAfter owed (xs ++ ys) = owedAfter (owedAfter owed xs) ys := by
  induction xs generalizing owed with
  | nil => rfl
  | cons c t ih => rw [List.cons_append, owedAfter, owedAfter, ih]

theorem emitScalars_append (pfx : List Nat) (owed : Bool) (xs ys : List Nat) :
    emitScalars pfx owed (xs ++ ys) =
      emitScalars pfx owed xs ++ emitScalars pfx (owedAfter owed xs) ys := by
  induction xs generalizing owed with
  | nil => rfl
  | cons c t ih =>
    rw [List.cons_append, emitScalars, emitScalars, owedAfter, ih]
    simp [List.append_assoc]

theorem findNlScalars_none {l : List Nat} (h : findNlScalars l = none) :
    ∀ c ∈ l, c ≠ 10 := by
  induction l with
  | nil => simp
  | cons c t ih =>
    rw [findNlScalars] at h
    by_cases hc : c = 10
    · rw [if_pos hc] at h; cases h
    · rw [if_neg hc] at h
      intro d hd
      simp only [List.mem_cons] at hd
      rcases hd with rfl | hd
      · exact hc
      · match hr : findNlScalars t with
        | some k => rw [hr] at h; cases h
        | none => exact ih hr d hd

theorem emitScalars_no_newline {pfx l : List Nat} {owed : Bool}
    (h : ∀ c ∈ l, c ≠ 10) (hne : l ≠ []) :
    emitScalars pfx owed l = (if owed then pfx else []) ++ l ∧
      owedAfter owed l = false := by
  induction l generalizing owed with
  | nil => exact absurd rfl hne
  | cons c t ih =>
    have hc : c ≠ 10 := h c (by simp)
    have hcb : (c == 10) = false := by simp [hc]
    rw [emitScalars, owedAfter, hcb]
    match t with
    | [] =>
      refine ⟨rfl, rfl⟩
    | d :: t2 =>
      obtain ⟨h1, h2⟩ := ih (fun e he => h e (by simp at he ⊢; tauto)) (by simp)
      rw [h1, h2]
      simp

theorem emitScalars_split {pfx l : List Nat} {owed : Bool} {k : Nat}
    (h : findNlScalars l = some k) :
    emitScalars pfx owed l =
      (if owed then pfx else []) ++ l.take k ++ emitScalars pfx true (l.drop k) ∧
    owedAfter owed l = owedAfter true (l.drop k) := by
  induction l generalizing owed k with
  | nil => cases h
  | cons c t ih =>
    rw [findNlScalars] at h
    by_cases hc : c = 10
    · rw [if_pos hc] at h
      cases h
      subst hc
      rw [emitScalars, owedAfter]
      simp
    · rw [if_neg hc] at h
      match hr : findNlScalars t with
      | none => rw [hr] at h; cases h
      | some k0 =>
        rw [hr] at h
        dsimp only [Option.map] at h
        obtain hk : k0 + 1 = k := by cases h; rfl
        subst hk
        have hcb : (c == 10) = false := by simp [hc]
        obtain ⟨h1, h2⟩ := @ih false k0 hr
        rw [emitScalars, owedAfter, hcb, h1, h2]
        constructor
        · simp [List.take_succ_cons, List.drop_succ_cons]
        · rfl

theorem fmtAccSink_writeStr (s buf : List Nat) :
    fmtAccSink.writeStr s buf = (.ok (), s ++ buf) := rfl

/-- One pass of the fmt write loop against the accumulating sink, with
trimming disabled: the sink receives exactly the spec-side emission and the
owed-prefix flag afterwards matches owedAfter. -/
theorem fmtLoop_acc (buf : List Nat) (st : FmtState) (s : List Nat)
    (htrim : st.trimUserIndents = false) :
    fmtLoop fmtAccSink st buf s =
      (.ok (), { st with insertIndent := owedAfter st.insertIndent buf },
        s ++ emitScalars st.pfxScalars st.insertIndent buf) := by
  have H : ∀ n (buf : List Nat) (st : FmtState) (s : List Nat),
      buf.length ≤ n → st.trimUserIndents = false →
      fmtLoop fmtAccSink st buf s =
        (.ok (), { st with insertIndent := owedAfter st.insertIndent buf },
          s ++ emitScalars st.pfxScalars st.insertIndent buf) := by
    intro n
    induction n with
    | zero =>
      intro buf st s hlen htrim
      match buf with
      | [] =>
        rw [fmtLoop]
        simp [owedAfter, emitScalars]
    | succ n ih =>
      intro buf st s hlen htrim
      match buf with
      | [] =>
        rw [fmtLoop]
        simp [owedAfter, emitScalars]
      | b :: rest =>
        rw [fmtLoop.eq_def]
        simp only [fmtAccSink_writeStr]
        match hnl : findNlScalars (b :: rest) with
        | none =>
          obtain ⟨he, ho⟩ := @emitScalars_no_newline st.pfxScalars (b :: rest)
            st.insertIndent (findNlScalars_none hnl) (by simp)
          rw [he, ho]
          by_cases hins : st.insertIndent
          · rw [if_pos hins, hins]
            simp [List.append_assoc]
          · rw [if_neg hins]
            simp only [Bool.not_eq_true] at hins
            rw [hins]
            have hst : ({ st with insertIndent := false } : FmtState) = st := by
              rw [← hins]
            rw [hst]
            simp
        | some nlb =>
          obtain ⟨he, ho⟩ := @emitScalars_split st.pfxScalars (b :: rest)
            st.insertIndent nlb hnl
          obtain ⟨h1, h2⟩ := findNlScalars_pos hnl
          have hlen2 : ((b :: rest).drop nlb).length ≤ n := by
            simp only [List.length_drop, List.length_cons]
            simp only [List.length_cons] at hlen
            omega
          rw [he, ho]
          have htrim2 : ({ st with insertIndent := true } : FmtState).trimUserIndents = false :=
            htrim
          by_cases hins : st.insertIndent
          · rw [if_pos hins, hins]
            dsimp only
            rw [if_neg (by rw [htrim]; simp)]
            rw [ih _ _ _ hlen2 htrim2]
            simp [List.append_assoc]
          · rw [if_neg hins]
            simp only [Bool.not_eq_true] at hins
            rw [hins]
            dsimp only
            rw [if_neg (by rw [htrim]; simp)]
            rw [ih _ _ _ hlen2 htrim2]
            simp [List.append_assoc]
  exact H buf.length buf st s le_rfl htrim

/-- One write_str call against the accumulating sink (trimming off). -/
theorem fmtWriteStr_acc (buf : List Nat) (st : FmtState) (s : List Nat)
    (htrim : st.trimUserIndents = false) (htrim2 : st.isTrimmingIndents = false) :
    fmtWriteStr fmtAccSink st buf s =
      (.ok (), { st with insertIndent := owedAfter st.insertIndent buf },
        s ++ emitScalars st.pfxScalars st.insertIndent buf) := by
  unfold fmtWriteStr
  rw [if_neg (by simp [htrim2])]
  exact fmtLoop_acc buf st s htrim

/-- A sequence of write_str calls against the accumulating sink equals the
spec-side emission of the concatenated input. -/
theorem fmtRunStrs_acc (ws : List (List Nat)) (st : FmtState) (s : List Nat)
    (htrim : st.trimUserIndents = false) (htrim2 : st.isTrimmingIndents = false) :
    fmtRunStrs fmtAccSink ws st s =
      ({ st with insertIndent := owedAfter st.insertIndent ws.flatten },
        s ++ emitScalars st.pfxScalars st.insertIndent ws.flatten) := by
  induction ws generalizing st s with
  | nil =>
    rw [fmtRunStrs]
    simp [owedAfter, emitScalars]
  | cons w ws ih =>
    rw [fmtRunStrs]
    rw [fmtWriteStr_acc w st s htrim htrim2]
    dsimp only
    have ht1 : ({ st with insertIndent := owedAfter st.insertIndent w } : FmtState).trimUserIndents = false := htrim
    have ht2 : ({ st with insertIndent := owedAfter st.insertIndent w } : FmtState).isTrimmingIndents = false := htrim2
    rw [ih _ _ ht1 ht2]
    rw [List.flatten_cons, owedAfter_append, emitScalars_append]
    simp [List.append_assoc]

/-- C4: Prefix placement. Against a fully accepting sink, the fmt adapter's
output over any sequence of written strings equals the spec-side emission:
the configured prefix appears exactly once immediately before the text
following every forwarded line terminator, and at the very start iff
indent_first_line is true; an empty line (a bare terminator) still
receives its prefix; nothing follows a trailing terminator. In the
concrete case prefix tab, indent_first_line true, input a NL b NL, the
byte adapter produces exactly tab a NL tab b NL, which equals the
spec-side emission of the same input. -/
theorem prefix_placement :
    (∀ (pfx : List Nat) (initialIndent : Bool) (ws : List (List Nat)),
      (fmtRunStrs fmtAccSink ws (mkFmtState pfx initialIndent false) []).2 =
        emitScalars pfx initialIndent ws.flatten) ∧
    ioWriteFully vecSink 10 (mkIoState [9] true false) [97, 10, 98, 10] [] =
      some ({ mkIoState [9] true false with unwrittenPfx := [9] },
        [9, 97, 10, 9, 98, 10]) ∧
    emitScalars [9] true [97, 10, 98, 10] = [9, 97, 10, 9, 98, 10] := by
  refine ⟨?_, ?_, rfl⟩
  · intro pfx initialIndent ws
    rw [fmtRunStrs_acc ws (mkFmtState pfx initialIndent false) [] rfl rfl]
    simp [mkFmtState]
  · simp [ioWriteFully, ioWrite, ioWriteStr, ioWriteStrBody, drainLoop, mkIoState,
      partialFromUtf8, utf8Validate, shiftRes, utf8Cont, findNlBoundary, vecSink,
      utf8EncodeScalars, utf8EncodeScalar]

/-- C10: Deferred prefix emission. Writing x NL to a fresh byte adapter
with prefix tab and initial indent leaves the sink containing exactly
tab x NL — no trailing prefix — with the prefix for the next line owed in
unwritten_prefix; a later write carrying y forwards that prefix first,
producing tab x NL tab y. In general (fmt adapter, fully accepting sink,
trimming off), a write whose input ends with a line terminator forwards
nothing beyond that terminator during the call (the emission ends at the
terminator) and leaves insert_indent owed for a later write. -/
theorem deferred_prefix_emission :
    ioWriteFully vecSink 10 (mkIoState [9] true false) [120, 10] [] =
      some ({ mkIoState [9] true false with unwrittenPfx := [9] }, [9, 120, 10]) ∧
    ioWriteFully vecSink 10 { mkIoState [9] true false with unwrittenPfx := [9] }
      [121] [9, 120, 10] =
      some ({ mkIoState [9] true false with unwrittenPfx := [] },
        [9, 120, 10, 9, 121]) ∧
    (∀ (pfx u s : List Nat) (owed : Bool),
      fmtWriteStr fmtAccSink ⟨pfx, owed, false, false⟩ (u ++ [10]) s =
        (.ok (), ⟨pfx, true, false, false⟩, s ++ emitScalars pfx owed (u ++ [10])) ∧
      (emitScalars pfx owed (u ++ [10])).getLast? = some 10) := by
  refine ⟨?_, ?_, ?_⟩
  · simp [ioWriteFully, ioWrite, ioWriteStr, ioWriteStrBody, drainLoop, mkIoState,
      partialFromUtf8, utf8Validate, shiftRes, utf8Cont, findNlBoundary, vecSink,
      utf8EncodeScalars, utf8EncodeScalar]
  · simp [ioWriteFully, ioWrite, ioWriteStr, ioWriteStrBody, drainLoop, mkIoState,
      partialFromUtf8, utf8Validate, shiftRes, utf8Cont, findNlBoundary, vecSink,
      utf8EncodeScalars, utf8EncodeScalar]
  · intro pfx u s owed
    constructor
    · rw [fmtWriteStr_acc _ _ _ rfl rfl]
      have howed : owedAfter owed (u ++ [10]) = true := by
        rw [owedAfter_append]
        rfl
      rw [howed]
    · rw [emitScalars_append]
      have hlast : emitScalars pfx (owedAfter owed u) [10] =
          (if owedAfter owed u then pfx else []) ++ [10] := by
        rw [emitScalars]
        rfl
      rw [hlast, ← List.append_assoc, List.getLast?_concat]
